import Mathlib

/-!
Verification of the tANS entropy coder of `compression_toolkit` (src/tans.rs,
with the bit-level I/O of src/io.rs), as a shallow embedding in Lean.

Machine integers (`u32`, `u8`) are modelled as `Nat`.  All `u32` arithmetic
performed by the code stays below `2 ^ 32` on the inputs considered by the
theorems, except `u32::wrapping_sub` which is modelled explicitly
(`wrappingSub32`).  Rust `Vec` indexing is modelled with `List.getD`/`List.set`;
the theorems' hypotheses keep every access in bounds, mirroring the panic-free
executions of the source.
-/

set_option maxRecDepth 4000

namespace Tans

/-- Halving recursion computing the bit length, with a structural fuel
argument; fuel `x` is enough since halving `x ≥ 1` reaches `0` within `x`
steps. -/
def bitLenAux : Nat → Nat → Nat
  | 0, _ => 0
  | fuel + 1, x => if x = 0 then 0 else bitLenAux fuel (x / 2) + 1

/-- Bit length of a natural number (`0` for `0`), i.e. the number of binary
digits.  `u32::leading_zeros x = 32 - bitLen x` for `x < 2 ^ 32`. -/
def bitLen (x : Nat) : Nat := bitLenAux x x


/-- `u32::leading_zeros`, for arguments below `2 ^ 32`. -/
def leadingZeros32 (x : Nat) : Nat := 32 - bitLen x

/-- `u32::wrapping_sub a b` on `u32` values embedded as `Nat`. -/
def wrappingSub32 (a b : Nat) : Nat := (a % 2 ^ 32 + (2 ^ 32 - b % 2 ^ 32)) % 2 ^ 32

/-- src/tans.rs `compute_coded_nbits`: packed value `x` such that
`(x + s) >> 24` is the number of bits to emit in state `s`. -/
def compute_coded_nbits (freq sbits : Nat) : Nat :=
  -- For a symbol with no occurrences, return 0.
  if freq = 0 then 0
  else
    let low_nbits := sbits - (32 - leadingZeros32 (freq - 1))
    let covered := freq <<< low_nbits
    let threshold := covered + covered - (1 <<< sbits)
    ((low_nbits + 1) <<< 24) - threshold

/-- src/tans.rs `compute_stride`. -/
def compute_stride (nstates : Nat) : Nat :=
  if nstates ≤ 8 then 5 else (nstates >>> 1) + (nstates >>> 3) + 3

/-- src/tans.rs `struct Encoder`. -/
structure Encoder where
  symtab : List (Nat × Nat)
  origin : List Nat
  output : List Nat
  bits : Nat
  state : Nat
  nstates : Nat
  need_bits : Nat
  deriving Repr, DecidableEq

/-- The symbol-table loop of `Encoder::new` (lines 79-84): for each frequency,
push `(coded_nbits, offset)` where `offset = o.wrapping_sub(freqs[s]) & mask`,
and advance the running total `o`. -/
def buildSymtab (sbits mask : Nat) : List Nat → Nat → List (Nat × Nat)
  | [], _ => []
  | f :: fs, o =>
    (compute_coded_nbits f sbits, wrappingSub32 o f &&& mask) :: buildSymtab sbits mask fs (o + f)

/-- Inner loop of the origin-table population in `Encoder::new` (lines 91-95):
write `count` successive entries `origin[o] = s`, advancing
`o += 1` and `s = (s + stride) & mask` each time. -/
def fillOrigin (stride mask : Nat) : Nat → List Nat × Nat × Nat → List Nat × Nat × Nat
  | 0, acc => acc
  | count + 1, (origin, o, s) =>
    fillOrigin stride mask count (origin.set o s, o + 1, (s + stride) &&& mask)

/-- Outer loop of the origin-table population in `Encoder::new` (lines 90-96). -/
def spreadOrigin (stride mask : Nat) (freqs : List Nat) (init : List Nat × Nat × Nat) :
    List Nat × Nat × Nat :=
  freqs.foldl (fun acc f => fillOrigin stride mask f acc) init

/-- src/tans.rs `Encoder::new`. -/
def Encoder.new (sbits : Nat) (freqs : List Nat) : Encoder :=
  let nstates := 1 <<< sbits
  let mask := nstates - 1
  let symtab := buildSymtab sbits mask freqs 0
  let stride := compute_stride nstates
  let origin := (spreadOrigin stride mask freqs (List.replicate nstates 0, 0, stride &&& mask)).1
  { symtab := symtab, origin := origin, output := [], bits := 0, state := 0,
    nstates := nstates, need_bits := 32 }

/-- The `while` loop of src/tans.rs `Encoder::acc_bits`, with a structural
fuel argument: each pass consumes at least one of the remaining `nbits`, so
fuel `nbits` is enough for the whole loop (`Encoder.acc_bits` passes exactly
that).  The `need_bits = 0` case would loop forever in the source; it is
unreachable since `need_bits` always stays in `[1, 32]`, and the model stops
there. -/
def Encoder.accLoop : Nat → Encoder → Nat → Nat → Encoder
  | 0, e, _, _ => e
  | fuel + 1, e, bits, nbits =>
    if nbits = 0 then e
    else if e.need_bits > nbits then
      { e with bits := e.bits ||| ((bits &&& ((1 <<< nbits) - 1)) <<< (e.need_bits - nbits)),
               need_bits := e.need_bits - nbits }
    else if e.need_bits = 0 then e
    else
      Encoder.accLoop fuel
        { e with output := e.output ++ [e.bits ||| (bits >>> (nbits - e.need_bits))],
                 bits := 0, need_bits := 32 }
        bits (nbits - e.need_bits)

/-- src/tans.rs `Encoder::acc_bits`: accumulate the low `nbits` bits of `bits`
into the 32-bit register, flushing full words to `output`.  The register fills
from the most significant bit downwards. -/
def Encoder.acc_bits (e : Encoder) (bits : Nat) (nbits : Nat) : Encoder :=
  Encoder.accLoop nbits e bits nbits

/-- src/tans.rs `Encoder::encode_first`. -/
def Encoder.encode_first (e : Encoder) (sym : Nat) : Encoder :=
  let cn := e.symtab.getD sym (0, 0)
  let nbits := cn.1 >>> 24
  let idx := (e.nstates >>> nbits) + cn.2
  { e with state := e.origin.getD (idx &&& (e.nstates - 1)) 0 }

/-- src/tans.rs `Encoder::encode_sym`. -/
def Encoder.encode_sym (e : Encoder) (sym : Nat) : Encoder :=
  let cn := e.symtab.getD sym (0, 0)
  let nbits := (e.state + cn.1) >>> 24
  let e' := e.acc_bits e.state nbits
  let idx := ((e'.state + e'.nstates) >>> nbits) + cn.2
  { e' with state := e'.origin.getD (idx &&& (e'.nstates - 1)) 0 }

/-- src/tans.rs `Encoder::write`, recorded as the ordered sequence of
`write_bits(value, nbits)` calls the encoder makes on its output port:
after accumulating the final state (`sbits` wide), first the partial
accumulator word (if any), then the flushed words in reverse order. -/
def Encoder.writeCalls (e : Encoder) : List (Nat × Nat) :=
  let sbits := 32 - leadingZeros32 (e.nstates - 1)
  let e' := e.acc_bits e.state sbits
  (if e'.need_bits < 32 then [(e'.bits >>> e'.need_bits, 32 - e'.need_bits)] else [])
    ++ (List.range e'.output.length).reverse.map (fun i => (e'.output.getD i 0, 32))

/-- src/io.rs `struct BitWriter`: `out` is the byte stream written so far,
`bits` the partially filled byte, `have_bits` how many of its low bits are
in use. -/
structure BitWriter where
  out : List Nat
  bits : Nat
  have_bits : Nat
  deriving Repr, DecidableEq

/-- The `while` loop of src/io.rs `BitWriter::write_bits`, with a structural
fuel argument: each pass consumes at least one of the remaining `nbits`, so
fuel `nbits` is enough (`BitWriter.write_bits` passes exactly that).  The
`have_bits ≥ 8` case is unreachable — `have_bits` stays in `[0, 7]` — and the
model stops there. -/
def BitWriter.writeLoop : Nat → BitWriter → Nat → Nat → BitWriter
  | 0, w, _, _ => w
  | fuel + 1, w, bits, nbits =>
    if nbits = 0 then w
    else
      let b := w.bits ||| ((bits <<< w.have_bits) &&& 0xff)
      let need := 8 - w.have_bits
      if nbits < need then { w with bits := b, have_bits := w.have_bits + nbits }
      else if w.have_bits ≥ 8 then w
      else
        BitWriter.writeLoop fuel { out := w.out ++ [b], bits := 0, have_bits := 0 }
          (bits >>> need) (nbits - need)

/-- src/io.rs `BitWriter::write_bits`: pack `nbits` low bits of `bits` into
bytes, least significant position first. -/
def BitWriter.write_bits (w : BitWriter) (bits : Nat) (nbits : Nat) : BitWriter :=
  BitWriter.writeLoop nbits w bits nbits

/-- src/io.rs `BitWriter::flush`: emit the partial byte, zero-padded. -/
def BitWriter.flush (w : BitWriter) : List Nat :=
  if w.have_bits > 0 then w.out ++ [w.bits] else w.out

/-- src/io.rs `struct BitReader`: `input` is the remaining byte stream,
`bits` the current partially consumed byte (already shifted), `have_bits` how
many bits of it remain. -/
structure BitReader where
  input : List Nat
  bits : Nat
  have_bits : Nat
  deriving Repr, DecidableEq

/-- The loop of src/io.rs `BitReader::read_bits`, with a structural fuel
argument: each pass consumes at least one of the remaining `need` bits, so
fuel `need` is enough (`BitReader.read_bits` passes exactly that).  Gather
`need` more bits, least-significant first, into `acc` at position `shift`;
refill the byte buffer from `input` when empty, failing at end of input. -/
def BitReader.readLoop : Nat → BitReader → Nat → Nat → Nat → Option (Nat × BitReader)
  | 0, r, need, acc, _ => if need = 0 then some (acc, r) else none
  | fuel + 1, r, need, acc, shift =>
    if need = 0 then some (acc, r)
    else if r.have_bits = 0 then
      match r.input with
      | [] => none
      | byte :: rest =>
        let n := min need 8
        BitReader.readLoop fuel { input := rest, bits := byte >>> n, have_bits := 8 - n }
          (need - n) (acc ||| ((byte &&& ((1 <<< n) - 1)) <<< shift)) (shift + n)
    else
      let n := min need r.have_bits
      BitReader.readLoop fuel { input := r.input, bits := r.bits >>> n, have_bits := r.have_bits - n }
        (need - n) (acc ||| ((r.bits &&& ((1 <<< n) - 1)) <<< shift)) (shift + n)

/-- src/io.rs `BitReader::read_bits`. -/
def BitReader.read_bits (r : BitReader) (nbits : Nat) : Option (Nat × BitReader) :=
  BitReader.readLoop nbits r nbits 0 0

/-- src/tans.rs `struct Decoder`: the lookup table (one `(symbol, nbits, base)`
entry per state) together with the current entry. -/
structure Decoder (S : Type) where
  table : List (S × Nat × Nat)
  stateEntry : S × Nat × Nat
  deriving Repr, DecidableEq

/-- src/tans.rs `Decoder::decode_first`: read `sbits` bits to pick the initial
state, return its symbol. -/
def Decoder.decode_first [Inhabited S] (d : Decoder S) (r : BitReader) :
    Option (S × Decoder S × BitReader) :=
  let sbits := 32 - leadingZeros32 (d.table.length - 1)
  match r.read_bits sbits with
  | none => none
  | some (s, r') =>
    let e := d.table.getD s default
    some (e.1, { d with stateEntry := e }, r')

/-- src/tans.rs `Decoder::decode_sym`: read `nbits` bits from the current
entry, move to state `base | bits`, return the new entry's symbol. -/
def Decoder.decode_sym [Inhabited S] (d : Decoder S) (r : BitReader) :
    Option (S × Decoder S × BitReader) :=
  let nbits := d.stateEntry.2.1
  let base := d.stateEntry.2.2
  match r.read_bits nbits with
  | none => none
  | some (v, r') =>
    let e := d.table.getD (base ||| v) default
    some (e.1, { d with stateEntry := e }, r')

/-- Run the encoder over a symbol sequence the way the source's test does:
`encode_first` on the first symbol, `encode_sym` on the rest. -/
def encodeSeq (sbits : Nat) (freqs syms : List Nat) : Encoder :=
  match syms with
  | [] => Encoder.new sbits freqs
  | s :: rest => rest.foldl Encoder.encode_sym ((Encoder.new sbits freqs).encode_first s)

/-- Feed the encoder's `write` calls to a fresh `BitWriter` and `flush`,
producing the byte stream of a complete encode (as in test `encode_abbac`). -/
def encodeBytes (sbits : Nat) (freqs syms : List Nat) : List Nat :=
  ((encodeSeq sbits freqs syms).writeCalls.foldl
    (fun (w : BitWriter) c => w.write_bits c.1 c.2)
    { out := [], bits := 0, have_bits := 0 }).flush

/-- Repeated `decode_sym`, collecting `n` symbols. -/
def decodeLoop [Inhabited S] : Nat → Decoder S → BitReader → Option (List S)
  | 0, _, _ => some []
  | n + 1, d, r =>
    match d.decode_sym r with
    | none => none
    | some (s, d', r') => (decodeLoop n d' r').map (s :: ·)

/-- Decode `n` symbols from a byte stream: `decode_first`, then `n - 1` times
`decode_sym` (as in test `decode_abbc`). -/
def decodeBytes [Inhabited S] (table : List (S × Nat × Nat)) (bytes : List Nat) (n : Nat) :
    Option (List S) :=
  match n with
  | 0 => some []
  | n + 1 =>
    let d : Decoder S := { table := table, stateEntry := table.getD 0 default }
    match d.decode_first { input := bytes, bits := 0, have_bits := 0 } with
    | none => none
    | some (s, d', r') => (decodeLoop n d' r').map (s :: ·)

/-- Abbreviation for intermediate encoder values of the table built from
`Encoder::new(3, &[2, 5, 1])` (the table of tests `encoder_new` and
`encode_abbac`): only `output`, `bits`, `state` and `need_bits` vary while
encoding. -/
def mkE (output : List Nat) (bits state need_bits : Nat) : Encoder :=
  { symtab := [(50331640, 6), (16777214, 5), (67108856, 6)],
    origin := [5, 2, 7, 4, 1, 6, 3, 0],
    output := output, bits := bits, state := state, nstates := 8,
    need_bits := need_bits }

/-- Abbreviation for intermediate encoder values of the table built from
`Encoder::new(3, &[1, 5, 2])` (the frequency vector matching the symbol
indexing c = 0, b = 1, a = 2). -/
def mkF (output : List Nat) (bits state need_bits : Nat) : Encoder :=
  { symtab := [(67108856, 7), (16777214, 4), (50331640, 4)],
    origin := [5, 2, 7, 4, 1, 6, 3, 0],
    output := output, bits := bits, state := state, nstates := 8,
    need_bits := need_bits }

/-- The bit sequence a single `write_bits(v, n)` call hands to a bit-stream
port, per the §6 port contract: the `n` low bits of `v`, least significant
first. -/
def callBits (v n : Nat) : List Bool := (List.range n).map v.testBit

/-- The complete bit stream corresponding to a sequence of `write_bits`
calls, in order. -/
def callsBits (calls : List (Nat × Nat)) : List Bool :=
  (calls.map (fun c => callBits c.1 c.2)).flatten

/-- Value of a bit sequence read least-significant-bit first (the value
`read_bits` reconstructs, per the §6 port contract). -/
def natOfBits : List Bool → Nat
  | [] => 0
  | b :: bs => (cond b 1 0) + 2 * natOfBits bs

/-- The §6 bit-stream port contract for `read_bits(n)`: consume exactly `n`
bits of the stream, least-significant-bit of the result being the earliest
bit read; fail if fewer than `n` bits remain. -/
def readBitsStream (n : Nat) (bs : List Bool) : Option (Nat × List Bool) :=
  if n ≤ bs.length then some (natOfBits (bs.take n), bs.drop n) else none

/-- The hand-built 8-state decode table from the src/tans.rs test suite
(`EXAMPLE_TABLE`), for the alphabet a, b, c with frequencies 2, 5, 1 and
`sbits = 3`; entries are `(symbol, nbits, base)`, indexed by state. -/
def EXAMPLE_TABLE : List (Char × Nat × Nat) :=
  [('c', 3, 0),
   ('b', 1, 6),
   ('a', 2, 4),
   ('b', 0, 1),
   ('b', 1, 4),
   ('a', 2, 0),
   ('b', 0, 0),
   ('b', 1, 2)]

/-- Abbreviation for decoder values over `EXAMPLE_TABLE`: only the current
entry varies while decoding. -/
def mkD (e : Char × Nat × Nat) : Decoder Char :=
  { table := EXAMPLE_TABLE, stateEntry := e }

/-- Invariant of the encoder maintained by construction and by every encode
step: the state space is `2 ^ sbits`, the origin table has exactly that many
entries, each of them below `2 ^ sbits`, and the current state is below
`2 ^ sbits`. -/
def EncInv (sbits : Nat) (e : Encoder) : Prop :=
  e.nstates = 2 ^ sbits ∧ e.origin.length = 2 ^ sbits
    ∧ (∀ x ∈ e.origin, x < 2 ^ sbits) ∧ e.state < 2 ^ sbits

instance (sbits : Nat) (e : Encoder) : Decidable (EncInv sbits e) := by
  unfold EncInv
  infer_instance

/-- Invariant of the encoder's 32-bit accumulation register: `need_bits`
counts the free low positions (always in `[1, 32]`), and the occupied part of
`bits` sits strictly above them. -/
def AccInv (e : Encoder) : Prop :=
  1 ≤ e.need_bits ∧ e.need_bits ≤ 32 ∧ e.bits < 2 ^ 32 ∧ e.bits % 2 ^ e.need_bits = 0

instance (e : Encoder) : Decidable (AccInv e) := by
  unfold AccInv
  infer_instance

/-- `bitLen` agrees with `Nat.log2 + 1` on positive numbers. -/
theorem bitLenAux_eq (fuel x : Nat) (h : x ≤ fuel) :
    bitLenAux fuel x = if x = 0 then 0 else Nat.log2 x + 1 := by
  induction fuel generalizing x with
  | zero => interval_cases x; simp [bitLenAux]
  | succ fuel ih =>
    rcases Nat.eq_zero_or_pos x with hx | hx
    · subst hx; simp [bitLenAux]
    · have hx2 : x / 2 ≤ fuel := by omega
      rw [bitLenAux, if_neg (by omega), ih _ hx2]
      rcases Nat.lt_or_ge x 2 with h2 | h2
      · have : x = 1 := by omega
        subst this
        simp [Nat.log2]
      · have : ¬ (x / 2 = 0) := by omega
        rw [if_neg this, if_neg (by omega)]
        conv_rhs => rw [Nat.log2]
        rw [if_pos h2]

/-- `bitLen` in terms of `Nat.log2`. -/
theorem bitLen_eq (x : Nat) : bitLen x = if x = 0 then 0 else Nat.log2 x + 1 :=
  bitLenAux_eq x x le_rfl

/-- One unfolding step of `decodeLoop`. -/
theorem decodeLoop_succ {S : Type} [Inhabited S] (n : Nat) (d : Decoder S) (r : BitReader)
    (s : S) (d' : Decoder S) (r' : BitReader)
    (h : d.decode_sym r = some (s, d', r')) (l : List S)
    (h2 : decodeLoop n d' r' = some l) :
    decodeLoop (n + 1) d r = some (s :: l) := by
  simp [decodeLoop, h, h2]

/-- Unfolding of `decodeBytes` at a positive count. -/
theorem decodeBytes_succ {S : Type} [Inhabited S] (table : List (S × Nat × Nat))
    (bytes : List Nat) (n : Nat) (s : S) (d' : Decoder S) (r' : BitReader)
    (h : Decoder.decode_first { table := table, stateEntry := table.getD 0 default }
          { input := bytes, bits := 0, have_bits := 0 } = some (s, d', r'))
    (l : List S) (h2 : decodeLoop n d' r' = some l) :
    decodeBytes table bytes (n + 1) = some (s :: l) := by
  simp only [decodeBytes]
  rw [h]
  simp [h2]


/-! Concrete encode/decode runs, computed step by step on literal states.
These evaluate the embedded functions on the inputs used by the claim
theorems below; each step is checked by `decide` on literal records. -/

theorem newE251 : Encoder.new 3 [2,5,1] = (mkE [] 0 0 32) := by decide
theorem firstC : Encoder.encode_first (mkE [] 0 0 32) 2 = (mkE [] 0 0 32) := by decide
theorem stepA1 : Encoder.encode_sym (mkE [] 0 0 32) 0 = (mkE [] 0 5 30) := by decide
theorem stepA2 : Encoder.encode_sym (mkE [] 0 5 30) 0 = (mkE [] 268435456 2 28) := by decide
theorem stepA3 : Encoder.encode_sym (mkE [] 268435456 2 28) 0 = (mkE [] 402653184 5 26) := by decide
theorem stepA4 : Encoder.encode_sym (mkE [] 402653184 5 26) 0 = (mkE [] 419430400 2 24) := by decide
theorem stepA5 : Encoder.encode_sym (mkE [] 419430400 2 24) 0 = (mkE [] 427819008 5 22) := by decide
theorem stepA6 : Encoder.encode_sym (mkE [] 427819008 5 22) 0 = (mkE [] 428867584 2 20) := by decide
theorem stepA7 : Encoder.encode_sym (mkE [] 428867584 2 20) 0 = (mkE [] 429391872 5 18) := by decide
theorem stepA8 : Encoder.encode_sym (mkE [] 429391872 5 18) 0 = (mkE [] 429457408 2 16) := by decide
theorem stepA9 : Encoder.encode_sym (mkE [] 429457408 2 16) 0 = (mkE [] 429490176 5 14) := by decide
theorem stepA10 : Encoder.encode_sym (mkE [] 429490176 5 14) 0 = (mkE [] 429494272 2 12) := by decide
theorem stepA11 : Encoder.encode_sym (mkE [] 429494272 2 12) 0 = (mkE [] 429496320 5 10) := by decide
theorem stepA12 : Encoder.encode_sym (mkE [] 429496320 5 10) 0 = (mkE [] 429496576 2 8) := by decide
theorem stepA13 : Encoder.encode_sym (mkE [] 429496576 2 8) 0 = (mkE [] 429496704 5 6) := by decide
theorem stepA14 : Encoder.encode_sym (mkE [] 429496704 5 6) 0 = (mkE [] 429496720 2 4) := by decide
theorem stepA15 : Encoder.encode_sym (mkE [] 429496720 2 4) 0 = (mkE [] 429496728 5 2) := by decide
theorem stepA16 : Encoder.encode_sym (mkE [] 429496728 5 2) 0 = (mkE [429496733] 0 2 32) := by decide
theorem stepA17 : Encoder.encode_sym (mkE [429496733] 0 2 32) 0 = (mkE [429496733] 2147483648 5 30) := by decide
theorem stepB2 : Encoder.encode_sym (mkE [] 0 5 30) 1 = (mkE [] 536870912 4 29) := by decide
theorem stepB3 : Encoder.encode_sym (mkE [] 536870912 4 29) 1 = (mkE [] 536870912 4 28) := by decide
theorem stepB4 : Encoder.encode_sym (mkE [] 536870912 4 28) 0 = (mkE [] 536870912 2 26) := by decide
theorem newE152 : Encoder.new 3 [1,5,2] = (mkF [] 0 0 32) := by decide
theorem firstX : Encoder.encode_first (mkF [] 0 0 32) 0 = (mkF [] 0 5 32) := by decide
theorem stepX2 : Encoder.encode_sym (mkF [] 0 5 32) 2 = (mkF [] 1073741824 0 30) := by decide
theorem stepX3 : Encoder.encode_sym (mkF [] 1073741824 0 30) 1 = (mkF [] 1073741824 1 30) := by decide
theorem stepX4 : Encoder.encode_sym (mkF [] 1073741824 1 30) 1 = (mkF [] 1073741824 6 30) := by decide
theorem stepX5 : Encoder.encode_sym (mkF [] 1073741824 6 30) 0 = (mkF [] 1879048192 5 27) := by decide
theorem wcC1 : Encoder.writeCalls (mkE [429496733] 0 2 32) = [(2, 3), (429496733, 32)] := by decide
theorem wcC2 : Encoder.writeCalls (mkE [] 536870912 2 26) = [(66, 9)] := by decide
theorem wcX : Encoder.writeCalls (mkF [] 1879048192 5 27) = [(117, 8)] := by decide
theorem bwC11 : BitWriter.write_bits { out := [], bits := 0, have_bits := 0 } 2 3 = { out := [], bits := 2, have_bits := 3 } := by decide
theorem bwC12 : BitWriter.write_bits { out := [], bits := 2, have_bits := 3 } 429496733 32 = { out := [234, 204, 204, 204], bits := 0, have_bits := 3 } := by decide
theorem bwC21 : BitWriter.write_bits { out := [], bits := 0, have_bits := 0 } 66 9 = { out := [66], bits := 0, have_bits := 1 } := by decide
theorem bwX1 : BitWriter.write_bits { out := [], bits := 0, have_bits := 0 } 117 8 = { out := [117], bits := 0, have_bits := 0 } := by decide
theorem dfP : Decoder.decode_first (mkD ('c', 3, 0)) { input := [66, 0], bits := 0, have_bits := 0 } = some ('a', mkD ('a', 2, 4), { input := [0], bits := 8, have_bits := 5 }) := by decide
theorem dsP1 : Decoder.decode_sym (mkD ('a', 2, 4)) { input := [0], bits := 8, have_bits := 5 } = some ('b', mkD ('b', 1, 4), { input := [0], bits := 2, have_bits := 3 }) := by decide
theorem dsP2 : Decoder.decode_sym (mkD ('b', 1, 4)) { input := [0], bits := 2, have_bits := 3 } = some ('b', mkD ('b', 1, 4), { input := [0], bits := 1, have_bits := 2 }) := by decide
theorem dsP3 : Decoder.decode_sym (mkD ('b', 1, 4)) { input := [0], bits := 1, have_bits := 2 } = some ('a', mkD ('a', 2, 0), { input := [0], bits := 0, have_bits := 1 }) := by decide
theorem dsP4 : Decoder.decode_sym (mkD ('a', 2, 0)) { input := [0], bits := 0, have_bits := 1 } = some ('c', mkD ('c', 3, 0), { input := [], bits := 0, have_bits := 7 }) := by decide
theorem dfQ : Decoder.decode_first (mkD ('c', 3, 0)) { input := [234, 204, 204, 204, 0], bits := 0, have_bits := 0 } = some ('a', mkD ('a', 2, 4), { input := [204, 204, 204, 0], bits := 29, have_bits := 5 }) := by decide
theorem dsQ1 : Decoder.decode_sym (mkD ('a', 2, 4)) { input := [204, 204, 204, 0], bits := 29, have_bits := 5 } = some ('a', mkD ('a', 2, 0), { input := [204, 204, 204, 0], bits := 7, have_bits := 3 }) := by decide
theorem dsQ2 : Decoder.decode_sym (mkD ('a', 2, 0)) { input := [204, 204, 204, 0], bits := 7, have_bits := 3 } = some ('b', mkD ('b', 0, 1), { input := [204, 204, 204, 0], bits := 1, have_bits := 1 }) := by decide
theorem dsQ3 : Decoder.decode_sym (mkD ('b', 0, 1)) { input := [204, 204, 204, 0], bits := 1, have_bits := 1 } = some ('b', mkD ('b', 1, 6), { input := [204, 204, 204, 0], bits := 1, have_bits := 1 }) := by decide
theorem dsQ4 : Decoder.decode_sym (mkD ('b', 1, 6)) { input := [204, 204, 204, 0], bits := 1, have_bits := 1 } = some ('b', mkD ('b', 1, 2), { input := [204, 204, 204, 0], bits := 0, have_bits := 0 }) := by decide
theorem dsQ5 : Decoder.decode_sym (mkD ('b', 1, 2)) { input := [204, 204, 204, 0], bits := 0, have_bits := 0 } = some ('a', mkD ('a', 2, 4), { input := [204, 204, 0], bits := 102, have_bits := 7 }) := by decide
theorem dsQ6 : Decoder.decode_sym (mkD ('a', 2, 4)) { input := [204, 204, 0], bits := 102, have_bits := 7 } = some ('b', mkD ('b', 0, 0), { input := [204, 204, 0], bits := 25, have_bits := 5 }) := by decide
theorem dsQ7 : Decoder.decode_sym (mkD ('b', 0, 0)) { input := [204, 204, 0], bits := 25, have_bits := 5 } = some ('c', mkD ('c', 3, 0), { input := [204, 204, 0], bits := 25, have_bits := 5 }) := by decide
theorem dsQ8 : Decoder.decode_sym (mkD ('c', 3, 0)) { input := [204, 204, 0], bits := 25, have_bits := 5 } = some ('b', mkD ('b', 1, 6), { input := [204, 204, 0], bits := 3, have_bits := 2 }) := by decide
theorem dsQ9 : Decoder.decode_sym (mkD ('b', 1, 6)) { input := [204, 204, 0], bits := 3, have_bits := 2 } = some ('b', mkD ('b', 1, 2), { input := [204, 204, 0], bits := 1, have_bits := 1 }) := by decide
theorem dsQ10 : Decoder.decode_sym (mkD ('b', 1, 2)) { input := [204, 204, 0], bits := 1, have_bits := 1 } = some ('b', mkD ('b', 0, 1), { input := [204, 204, 0], bits := 0, have_bits := 0 }) := by decide
theorem dsQ11 : Decoder.decode_sym (mkD ('b', 0, 1)) { input := [204, 204, 0], bits := 0, have_bits := 0 } = some ('b', mkD ('b', 1, 6), { input := [204, 204, 0], bits := 0, have_bits := 0 }) := by decide
theorem dsQ12 : Decoder.decode_sym (mkD ('b', 1, 6)) { input := [204, 204, 0], bits := 0, have_bits := 0 } = some ('b', mkD ('b', 0, 0), { input := [204, 0], bits := 102, have_bits := 7 }) := by decide
theorem dsQ13 : Decoder.decode_sym (mkD ('b', 0, 0)) { input := [204, 0], bits := 102, have_bits := 7 } = some ('c', mkD ('c', 3, 0), { input := [204, 0], bits := 102, have_bits := 7 }) := by decide
theorem dsQ14 : Decoder.decode_sym (mkD ('c', 3, 0)) { input := [204, 0], bits := 102, have_bits := 7 } = some ('b', mkD ('b', 0, 0), { input := [204, 0], bits := 12, have_bits := 4 }) := by decide
theorem dsQ15 : Decoder.decode_sym (mkD ('b', 0, 0)) { input := [204, 0], bits := 12, have_bits := 4 } = some ('c', mkD ('c', 3, 0), { input := [204, 0], bits := 12, have_bits := 4 }) := by decide
theorem dsQ16 : Decoder.decode_sym (mkD ('c', 3, 0)) { input := [204, 0], bits := 12, have_bits := 4 } = some ('b', mkD ('b', 1, 4), { input := [204, 0], bits := 1, have_bits := 1 }) := by decide

theorem dlP0 : decodeLoop 0 (mkD ('c', 3, 0)) { input := [], bits := 0, have_bits := 7 } = some ([] : List Char) := rfl
theorem dlP1 : decodeLoop 1 (mkD ('a', 2, 0)) { input := [0], bits := 0, have_bits := 1 } = some ['c'] := decodeLoop_succ _ _ _ _ _ _ dsP4 _ dlP0
theorem dlP2 : decodeLoop 2 (mkD ('b', 1, 4)) { input := [0], bits := 1, have_bits := 2 } = some ['a', 'c'] := decodeLoop_succ _ _ _ _ _ _ dsP3 _ dlP1
theorem dlP3 : decodeLoop 3 (mkD ('b', 1, 4)) { input := [0], bits := 2, have_bits := 3 } = some ['b', 'a', 'c'] := decodeLoop_succ _ _ _ _ _ _ dsP2 _ dlP2
theorem dlP4 : decodeLoop 4 (mkD ('a', 2, 4)) { input := [0], bits := 8, have_bits := 5 } = some ['b', 'b', 'a', 'c'] := decodeLoop_succ _ _ _ _ _ _ dsP1 _ dlP3
theorem dlQ0 : decodeLoop 0 (mkD ('b', 1, 4)) { input := [204, 0], bits := 1, have_bits := 1 } = some ([] : List Char) := rfl
theorem dlQ1 : decodeLoop 1 (mkD ('c', 3, 0)) { input := [204, 0], bits := 12, have_bits := 4 } = some ['b'] := decodeLoop_succ _ _ _ _ _ _ dsQ16 _ dlQ0
theorem dlQ2 : decodeLoop 2 (mkD ('b', 0, 0)) { input := [204, 0], bits := 12, have_bits := 4 } = some ['c', 'b'] := decodeLoop_succ _ _ _ _ _ _ dsQ15 _ dlQ1
theorem dlQ3 : decodeLoop 3 (mkD ('c', 3, 0)) { input := [204, 0], bits := 102, have_bits := 7 } = some ['b', 'c', 'b'] := decodeLoop_succ _ _ _ _ _ _ dsQ14 _ dlQ2
theorem dlQ4 : decodeLoop 4 (mkD ('b', 0, 0)) { input := [204, 0], bits := 102, have_bits := 7 } = some ['c', 'b', 'c', 'b'] := decodeLoop_succ _ _ _ _ _ _ dsQ13 _ dlQ3
theorem dlQ5 : decodeLoop 5 (mkD ('b', 1, 6)) { input := [204, 204, 0], bits := 0, have_bits := 0 } = some ['b', 'c', 'b', 'c', 'b'] := decodeLoop_succ _ _ _ _ _ _ dsQ12 _ dlQ4
theorem dlQ6 : decodeLoop 6 (mkD ('b', 0, 1)) { input := [204, 204, 0], bits := 0, have_bits := 0 } = some ['b', 'b', 'c', 'b', 'c', 'b'] := decodeLoop_succ _ _ _ _ _ _ dsQ11 _ dlQ5
theorem dlQ7 : decodeLoop 7 (mkD ('b', 1, 2)) { input := [204, 204, 0], bits := 1, have_bits := 1 } = some ['b', 'b', 'b', 'c', 'b', 'c', 'b'] := decodeLoop_succ _ _ _ _ _ _ dsQ10 _ dlQ6
theorem dlQ8 : decodeLoop 8 (mkD ('b', 1, 6)) { input := [204, 204, 0], bits := 3, have_bits := 2 } = some ['b', 'b', 'b', 'b', 'c', 'b', 'c', 'b'] := decodeLoop_succ _ _ _ _ _ _ dsQ9 _ dlQ7
theorem dlQ9 : decodeLoop 9 (mkD ('c', 3, 0)) { input := [204, 204, 0], bits := 25, have_bits := 5 } = some ['b', 'b', 'b', 'b', 'b', 'c', 'b', 'c', 'b'] := decodeLoop_succ _ _ _ _ _ _ dsQ8 _ dlQ8
theorem dlQ10 : decodeLoop 10 (mkD ('b', 0, 0)) { input := [204, 204, 0], bits := 25, have_bits := 5 } = some ['c', 'b', 'b', 'b', 'b', 'b', 'c', 'b', 'c', 'b'] := decodeLoop_succ _ _ _ _ _ _ dsQ7 _ dlQ9
theorem dlQ11 : decodeLoop 11 (mkD ('a', 2, 4)) { input := [204, 204, 0], bits := 102, have_bits := 7 } = some ['b', 'c', 'b', 'b', 'b', 'b', 'b', 'c', 'b', 'c', 'b'] := decodeLoop_succ _ _ _ _ _ _ dsQ6 _ dlQ10
theorem dlQ12 : decodeLoop 12 (mkD ('b', 1, 2)) { input := [204, 204, 204, 0], bits := 0, have_bits := 0 } = some ['a', 'b', 'c', 'b', 'b', 'b', 'b', 'b', 'c', 'b', 'c', 'b'] := decodeLoop_succ _ _ _ _ _ _ dsQ5 _ dlQ11
theorem dlQ13 : decodeLoop 13 (mkD ('b', 1, 6)) { input := [204, 204, 204, 0], bits := 1, have_bits := 1 } = some ['b', 'a', 'b', 'c', 'b', 'b', 'b', 'b', 'b', 'c', 'b', 'c', 'b'] := decodeLoop_succ _ _ _ _ _ _ dsQ4 _ dlQ12
theorem dlQ14 : decodeLoop 14 (mkD ('b', 0, 1)) { input := [204, 204, 204, 0], bits := 1, have_bits := 1 } = some ['b', 'b', 'a', 'b', 'c', 'b', 'b', 'b', 'b', 'b', 'c', 'b', 'c', 'b'] := decodeLoop_succ _ _ _ _ _ _ dsQ3 _ dlQ13
theorem dlQ15 : decodeLoop 15 (mkD ('a', 2, 0)) { input := [204, 204, 204, 0], bits := 7, have_bits := 3 } = some ['b', 'b', 'b', 'a', 'b', 'c', 'b', 'b', 'b', 'b', 'b', 'c', 'b', 'c', 'b'] := decodeLoop_succ _ _ _ _ _ _ dsQ2 _ dlQ14
theorem dlQ16 : decodeLoop 16 (mkD ('a', 2, 4)) { input := [204, 204, 204, 0], bits := 29, have_bits := 5 } = some ['a', 'b', 'b', 'b', 'a', 'b', 'c', 'b', 'b', 'b', 'b', 'b', 'c', 'b', 'c', 'b'] := decodeLoop_succ _ _ _ _ _ _ dsQ1 _ dlQ15

/-- Evaluation of the encoder on the test sequence c, a, b, b, a
(indices 2, 0, 1, 1, 0 for the table of `Encoder::new(3, &[2,5,1])`). -/
theorem encSeqC2 : encodeSeq 3 [2,5,1] [2,0,1,1,0] = mkE [] 536870912 2 26 := by
  simp only [encodeSeq, List.foldl_cons, List.foldl_nil]
  rw [newE251, firstC, stepA1, stepB2, stepB3, stepB4]

/-- Evaluation of the encoder on c followed by sixteen a's. -/
theorem encSeqC1 :
    encodeSeq 3 [2,5,1] [2,0,0,0,0,0,0,0,0,0,0,0,0,0,0,0,0] = mkE [429496733] 0 2 32 := by
  simp only [encodeSeq, List.foldl_cons, List.foldl_nil]
  rw [newE251, firstC, stepA1, stepA2, stepA3, stepA4, stepA5, stepA6, stepA7, stepA8,
    stepA9, stepA10, stepA11, stepA12, stepA13, stepA14, stepA15, stepA16]

/-- Evaluation of the encoder on c followed by seventeen a's. -/
theorem encSeqC5 :
    encodeSeq 3 [2,5,1] [2,0,0,0,0,0,0,0,0,0,0,0,0,0,0,0,0,0]
      = mkE [429496733] 2147483648 5 30 := by
  simp only [encodeSeq, List.foldl_cons, List.foldl_nil]
  rw [newE251, firstC, stepA1, stepA2, stepA3, stepA4, stepA5, stepA6, stepA7, stepA8,
    stepA9, stepA10, stepA11, stepA12, stepA13, stepA14, stepA15, stepA16, stepA17]

/-- Evaluation of the encoder built from freqs [1, 5, 2] on the sequence of
indices 0, 2, 1, 1, 0. -/
theorem encSeqX : encodeSeq 3 [1,5,2] [0,2,1,1,0] = mkF [] 1879048192 5 27 := by
  simp only [encodeSeq, List.foldl_cons, List.foldl_nil]
  rw [newE152, firstX, stepX2, stepX3, stepX4, stepX5]

/-- Byte stream of the complete c, a, b, b, a encode (test `encode_abbac`). -/
theorem bytesC2 : encodeBytes 3 [2,5,1] [2,0,1,1,0] = [66, 0] := by
  simp only [encodeBytes]
  rw [encSeqC2]
  decide

/-- Byte stream of the complete encode of c followed by sixteen a's. -/
theorem bytesC1 :
    encodeBytes 3 [2,5,1] [2,0,0,0,0,0,0,0,0,0,0,0,0,0,0,0,0]
      = [234, 204, 204, 204, 0] := by
  simp only [encodeBytes]
  rw [encSeqC1]
  decide

/-- Byte stream of the complete encode of indices 0, 2, 1, 1, 0 against the
freqs [1, 5, 2] table. -/
theorem bytesX : encodeBytes 3 [1,5,2] [0,2,1,1,0] = [117] := by
  simp only [encodeBytes]
  rw [encSeqX]
  decide

/-- Decoding the two bytes 0x42 0x00 with `EXAMPLE_TABLE` yields a, b, b, a, c. -/
theorem decodeC2 : decodeBytes EXAMPLE_TABLE [66, 0] 5 = some ['a','b','b','a','c'] :=
  decodeBytes_succ _ _ 4 _ _ _ dfP _ dlP4

/-- Decoding the five bytes of the corrupted long encode. -/
theorem decodeC1 :
    decodeBytes EXAMPLE_TABLE [234, 204, 204, 204, 0] 17
      = some ['a','a','b','b','b','a','b','c','b','b','b','b','b','c','b','c','b'] :=
  decodeBytes_succ _ _ 16 _ _ _ dfQ _ dlQ16


/-! General characterization of the symbol-table loop, used for claim C6. -/

/-- Entry `s` of the symbol table built starting from running total `o`. -/
theorem buildSymtab_getD (sbits mask : Nat) (freqs : List Nat) (o s : Nat)
    (hs : s < freqs.length) :
    (buildSymtab sbits mask freqs o).getD s (0, 0)
      = (compute_coded_nbits (freqs.getD s 0) sbits,
         wrappingSub32 (o + (freqs.take s).sum) (freqs.getD s 0) &&& mask) := by
  induction freqs generalizing o s with
  | nil => simp at hs
  | cons f fs ih =>
    cases s with
    | zero => simp [buildSymtab]
    | succ s =>
      have hs' : s < fs.length := by simpa using hs
      simpa [buildSymtab, Nat.add_assoc] using ih (o + f) s hs'

/-- The masked wrapping subtraction of the source equals subtraction modulo
`2 ^ sbits` (as integers). -/
theorem wrappingSub32_land (P f sbits : Nat) (hP : P < 2 ^ 32) (hf : f < 2 ^ 32)
    (hs : sbits ≤ 32) :
    ((wrappingSub32 P f &&& (1 <<< sbits - 1) : Nat) : Int) = ((P : Int) - f) % 2 ^ sbits := by
  have hd : (2 : Nat) ^ sbits ∣ 2 ^ 32 := pow_dvd_pow 2 hs
  rw [Nat.one_shiftLeft, Nat.and_pow_two_sub_one_eq_mod, wrappingSub32,
    Nat.mod_eq_of_lt hP, Nat.mod_eq_of_lt hf, Nat.mod_mod_of_dvd _ hd]
  have hcast : ((P + (2 ^ 32 - f) : Nat) : Int) = (P : Int) - f + 2 ^ sbits * 2 ^ (32 - sbits) := by
    have h32 : ((2 : Int) ^ sbits) * 2 ^ (32 - sbits) = 2 ^ 32 := by
      rw [← pow_add]
      congr 1
      omega
    push_cast [Nat.cast_sub (le_of_lt hf)]
    omega
  rw [Int.natCast_mod, hcast]
  push_cast
  rw [Int.add_mul_emod_self_left]


/-! ## Claim theorems

Symbols are identified with their encoder indices for the reference table
`Encoder::new(3, &[2, 5, 1])`: index 0 is the character a (frequency 2),
index 1 is b (frequency 5), index 2 is c (frequency 1).  `EXAMPLE_TABLE` is
the matching decode table (the src/tans.rs test suite checks it against this
encoder, and it coincides with the table derived from the same spread
assignment). -/

/-- C1: the round-trip claim fails on the code, and the code, not the claim,
is at fault.  Failing input: `sbits = 3`, `freqs = [2, 5, 1]`, symbol
sequence c followed by sixteen a's (indices `[2, 0, ..., 0]`).  While
encoding it, the sixteenth two-bit emission fills the 32-bit accumulator
exactly, and the unmasked `self.bits |= bits >> (nbits - self.need_bits)` in
`acc_bits` ORs state bit 2 (the encoder state is 5, above the two emitted
bits) into an already-occupied accumulator position, corrupting the flushed
word.  Decoding the resulting byte stream with the matching table yields a
17-symbol sequence that is neither the encoded sequence in forward order (as
the claim states) nor in reverse order (the encoder's actual stack
convention, cf. C2): the round-trip property the spec demands does not hold
on this input. -/
theorem c1_roundtrip_failure :
    encodeBytes 3 [2,5,1] [2,0,0,0,0,0,0,0,0,0,0,0,0,0,0,0,0] = [234, 204, 204, 204, 0]
    ∧ decodeBytes EXAMPLE_TABLE [234, 204, 204, 204, 0] 17
        = some ['a','a','b','b','b','a','b','c','b','b','b','b','b','c','b','c','b']
    ∧ (['a','a','b','b','b','a','b','c','b','b','b','b','b','c','b','c','b'] : List Char)
        ≠ ['c','a','a','a','a','a','a','a','a','a','a','a','a','a','a','a','a']
    ∧ (['a','a','b','b','b','a','b','c','b','b','b','b','b','c','b','c','b'] : List Char)
        ≠ ['a','a','a','a','a','a','a','a','a','a','a','a','a','a','a','a','c'] :=
  ⟨bytesC1, decodeC1, by decide, by decide⟩

/-- C2, counterexample: under the claim's symbol indexing c = 0, b = 1,
a = 2 (frequency vector `[1, 5, 2]`), encoding the index sequence
`0, 2, 1, 1, 0` does not produce the bytes 0x42 0x00 (it produces the single
byte 0x75), and decoding 0x42 0x00 with `EXAMPLE_TABLE` does not reproduce
c, a, b, b, a (it yields a, b, b, a, c, the reverse). -/
theorem c2_counterexample :
    ¬ (encodeBytes 3 [1,5,2] [0,2,1,1,0] = [0x42, 0x00]
       ∧ decodeBytes EXAMPLE_TABLE [0x42, 0x00] 5 = some ['c','a','b','b','a']) := by
  intro h
  rw [bytesX] at h
  exact absurd h.1 (by decide)

/-- C2, amended: the scenario holds with the code's symbol indexing a = 0,
b = 1, c = 2 (frequency vector `[2, 5, 1]`, as in test `encode_abbac`), the
sequence c, a, b, b, a being the index sequence `2, 0, 1, 1, 0`; encoding it
produces exactly the bytes 0x42 0x00, and decoding those two bytes against
the same table reproduces the five symbols in reverse order of encoding:
a, b, b, a, c. -/
theorem c2_amended_scenario :
    encodeBytes 3 [2,5,1] [2,0,1,1,0] = [0x42, 0x00]
    ∧ decodeBytes EXAMPLE_TABLE [0x42, 0x00] 5 = some ['a','b','b','a','c'] :=
  ⟨bytesC2, decodeC2⟩

/-- C3, counterexample: `Encoder::new(3, &[1])` is handed a distribution
whose sum, 1, is not `1 << 3 = 8`, yet it performs no check and silently
constructs a complete encoder; the seven origin-table slots the distribution
does not cover keep the padding value 0 from `resize`. -/
theorem c3_counterexample :
    ([1] : List Nat).sum ≠ 2 ^ 3
    ∧ Encoder.new 3 [1] =
      { symtab := [(67108856, 7)], origin := [5, 0, 0, 0, 0, 0, 0, 0],
        output := [], bits := 0, state := 0, nstates := 8, need_bits := 32 } :=
  ⟨by decide, by decide⟩

/-- C6, counterexample: with `sbits = 3`, `freqs = [2, 5, 1]` and `s = 0`,
the claim's formula `(C_s - f) mod L` with the *inclusive* cumulative count
`C_0 = freqs[0] = 2` gives `(2 - 2) mod 8 = 0`, but the offset the code
stores for symbol 0 is 6. -/
theorem c6_counterexample :
    ((Encoder.new 3 [2,5,1]).symtab.getD 0 (0, 0)).2
      ≠ ((([2, 5, 1] : List Nat).take (0 + 1)).sum - ([2, 5, 1] : List Nat).getD 0 0) % 2 ^ 3 := by
  decide

/-- C6, amended: the offset stored for symbol `s` is `(P_s - f) mod L` where
`P_s = freqs[0] + ... + freqs[s-1]` is the cumulative count of the symbols
*strictly before* `s` (the subtraction taken modulo `L = 2 ^ sbits`, i.e.
`u32::wrapping_sub` masked to `sbits` bits). -/
theorem c6_amended_offset (sbits : Nat) (freqs : List Nat) (s : Nat)
    (hs : s < freqs.length) (hsum : freqs.sum < 2 ^ 32) (hb : sbits ≤ 32) :
    ((((Encoder.new sbits freqs).symtab.getD s (0, 0)).2 : Nat) : Int)
      = (((freqs.take s).sum : Int) - (freqs.getD s 0 : Int)) % 2 ^ sbits := by
  have hP : (freqs.take s).sum < 2 ^ 32 := by
    have : (freqs.take s).sum ≤ freqs.sum := by
      conv_rhs => rw [← List.take_append_drop s freqs]
      rw [List.sum_append]
      omega
    omega
  have hf : freqs.getD s 0 < 2 ^ 32 := by
    have hmem : freqs.getD s 0 ∈ freqs := by
      rw [List.getD_eq_getElem freqs 0 hs]
      exact List.getElem_mem hs
    have : freqs.getD s 0 ≤ freqs.sum := List.single_le_sum (by simp) _ hmem
    omega
  show (((buildSymtab sbits (1 <<< sbits - 1) freqs 0).getD s (0, 0)).2 : Int) = _
  rw [buildSymtab_getD sbits (1 <<< sbits - 1) freqs 0 s hs]
  simpa using wrappingSub32_land ((freqs.take s).sum) (freqs.getD s 0) sbits hP hf hb

/-- Witness for C6's amended theorem at `sbits = 3`, `freqs = [2, 5, 1]`,
`s = 1`: the stored offset is 5 and `(2 - 5) mod 8 = 5`. -/
theorem c6_amended_offset_witness :
    (1 < ([2, 5, 1] : List Nat).length ∧ ([2, 5, 1] : List Nat).sum < 2 ^ 32 ∧ 3 ≤ 32)
    ∧ ((((Encoder.new 3 [2,5,1]).symtab.getD 1 (0, 0)).2 : Nat) : Int)
        = (((([2, 5, 1] : List Nat).take 1).sum : Int) - (([2, 5, 1] : List Nat).getD 1 0 : Int)) % 2 ^ 3 :=
  ⟨⟨by decide, by decide, by decide⟩,
    c6_amended_offset 3 [2,5,1] 1 (by decide) (by decide) (by decide)⟩

/-- C7, counterexample: `compute_coded_nbits` explicitly guards `freq == 0`
(src/tans.rs line 153) and returns the defined value 0 — no arithmetic
underflow occurs — and encoding a zero-frequency symbol (here symbol 0 of
`freqs = [0, 8]`) proceeds and produces a defined encoder state. -/
theorem c7_counterexample :
    compute_coded_nbits 0 3 = 0
    ∧ ((Encoder.new 3 [0,8]).encode_first 0).encode_sym 0 =
      { symtab := [(0, 0), (16777208, 0)], origin := [5, 2, 7, 4, 1, 6, 3, 0],
        output := [], bits := 0, state := 6, nstates := 8, need_bits := 32 } :=
  ⟨by decide, by decide⟩

/-- C7, amended: for a zero-frequency symbol `compute_coded_nbits` returns 0
by an explicit guard, so encoding such a symbol does not underflow: the
branchless selector `(state + coded_nbits) >> 24` evaluates to 0 bits for
every state below `2 ^ 24`, and the encode step proceeds with that junk
(but defined) value. -/
theorem c7_amended_zero_freq (sbits st : Nat) (h : st < 2 ^ 24) :
    compute_coded_nbits 0 sbits = 0 ∧ (st + compute_coded_nbits 0 sbits) >>> 24 = 0 := by
  refine ⟨by simp [compute_coded_nbits], ?_⟩
  simp only [compute_coded_nbits, if_pos rfl, Nat.add_zero, Nat.shiftRight_eq_div_pow]
  exact Nat.div_eq_of_lt h

/-- Witness for C7's amended theorem at `sbits = 3`, `state = 5`. -/
theorem c7_amended_zero_freq_witness :
    5 < 2 ^ 24 ∧ (compute_coded_nbits 0 3 = 0 ∧ (5 + compute_coded_nbits 0 3) >>> 24 = 0) :=
  ⟨by decide, c7_amended_zero_freq 3 5 (by decide)⟩


/-! ## Claim C4: the branchless bit-count selector -/

/-- The code's bit count `sbits - bit_length(f - 1)` equals the spec's
`n = floor(log2(L / f))` for `0 < f ≤ L = 2 ^ sbits`. -/
theorem low_nbits_eq_log2 (sbits f : Nat) (hf0 : 0 < f) (hfL : f ≤ 2 ^ sbits) :
    sbits - bitLen (f - 1) = Nat.log2 (2 ^ sbits / f) := by
  rcases Nat.lt_or_ge f 2 with h1 | h2
  · have : f = 1 := by omega
    subst this
    simp [bitLen_eq, Nat.log2_two_pow]
  · have hf1 : f - 1 ≠ 0 := by omega
    have hb : bitLen (f - 1) = Nat.log2 (f - 1) + 1 := by rw [bitLen_eq, if_neg hf1]
    set b := Nat.log2 (f - 1) + 1 with hbdef
    have hb1 : b - 1 = Nat.log2 (f - 1) := by omega
    have hlow : 2 ^ (b - 1) < f := by
      have h := Nat.log2_self_le hf1
      rw [hb1]
      omega
    have hhigh : f ≤ 2 ^ b := by
      have h := @Nat.lt_log2_self (f - 1)
      rw [← hbdef] at h
      omega
    have hbs : b ≤ sbits := by
      have hlt : f - 1 < 2 ^ sbits := by omega
      have := (Nat.log2_lt hf1).mpr hlt
      omega
    rw [hb]
    symm
    rw [Nat.log2_eq_log_two]
    apply Nat.log_eq_of_pow_le_of_lt_pow
    · rw [Nat.le_div_iff_mul_le hf0]
      calc 2 ^ (sbits - b) * f ≤ 2 ^ (sbits - b) * 2 ^ b := by
            exact Nat.mul_le_mul_left _ hhigh
        _ = 2 ^ sbits := by rw [← pow_add]; congr 1; omega
    · rw [Nat.div_lt_iff_lt_mul hf0]
      calc 2 ^ sbits = 2 ^ (sbits - b + 1) * 2 ^ (b - 1) := by
            rw [← pow_add]; congr 1; omega
        _ < 2 ^ (sbits - b + 1) * f := by
            exact mul_lt_mul_of_pos_left hlow (by positivity)

/-- The symbol's `covered = f * 2 ^ n` satisfies `L / 2 < covered ≤ L`. -/
theorem covered_bounds (sbits f : Nat) (hf0 : 0 < f) (hfL : f ≤ 2 ^ sbits) :
    f * 2 ^ Nat.log2 (2 ^ sbits / f) ≤ 2 ^ sbits
    ∧ 2 ^ sbits < 2 * (f * 2 ^ Nat.log2 (2 ^ sbits / f)) := by
  have hq : 2 ^ sbits / f ≠ 0 := by
    have : 1 ≤ 2 ^ sbits / f := (Nat.le_div_iff_mul_le hf0).mpr (by omega)
    omega
  constructor
  · calc f * 2 ^ Nat.log2 (2 ^ sbits / f) ≤ f * (2 ^ sbits / f) :=
        Nat.mul_le_mul_left _ (Nat.log2_self_le hq)
      _ ≤ 2 ^ sbits := by rw [Nat.mul_comm]; exact Nat.div_mul_le_self _ _
  · have h := @Nat.lt_log2_self (2 ^ sbits / f)
    have := (Nat.div_lt_iff_lt_mul hf0).mp h
    calc 2 ^ sbits < 2 ^ (Nat.log2 (2 ^ sbits / f) + 1) * f := this
      _ = 2 * (f * 2 ^ Nat.log2 (2 ^ sbits / f)) := by ring

/-- C4: branchless bit-count selector.  For `L = 2 ^ sbits` within the 24-bit
state-space bound, any frequency `0 < f ≤ L` and any state `x < L`, adding
`compute_coded_nbits f sbits` to `x` and shifting right by 24 yields
`n = floor(log2(L / f))` when `x` is below `threshold = 2 * f * 2 ^ n - L`,
and `n + 1` when `x` is at or above it; in particular the result is always
`n` or `n + 1`. -/
theorem c4_bitcount_selector (sbits f x : Nat) (hsb : sbits ≤ 24) (hf0 : 0 < f)
    (hfL : f ≤ 2 ^ sbits) (hx : x < 2 ^ sbits) :
    (x + compute_coded_nbits f sbits) >>> 24
      = if x < 2 * (f * 2 ^ Nat.log2 (2 ^ sbits / f)) - 2 ^ sbits
        then Nat.log2 (2 ^ sbits / f)
        else Nat.log2 (2 ^ sbits / f) + 1 := by
  have hfz : f ≠ 0 := by omega
  have hblen : bitLen (f - 1) ≤ sbits := by
    rcases Nat.lt_or_ge f 2 with h1 | h2
    · have : f = 1 := by omega
      subst this
      simp [bitLen_eq]
    · have hf1 : f - 1 ≠ 0 := by omega
      rw [bitLen_eq, if_neg hf1]
      have hlt : f - 1 < 2 ^ sbits := by omega
      have := (Nat.log2_lt hf1).mpr hlt
      omega
  set n := Nat.log2 (2 ^ sbits / f) with hn
  have hlow : sbits - bitLen (f - 1) = n := low_nbits_eq_log2 sbits f hf0 hfL
  obtain ⟨hcov1, hcov2⟩ := covered_bounds sbits f hf0 hfL
  set cov := f * 2 ^ n with hcov
  have hLP : (2 : Nat) ^ sbits ≤ 2 ^ 24 := Nat.pow_le_pow_right (by omega) hsb
  have hunfold : compute_coded_nbits f sbits = (n + 1) * 2 ^ 24 - (2 * cov - 2 ^ sbits) := by
    rw [hcov]
    rw [compute_coded_nbits, if_neg hfz]
    simp only [leadingZeros32, Nat.shiftLeft_eq, Nat.one_shiftLeft]
    have h32 : 32 - (32 - bitLen (f - 1)) = bitLen (f - 1) := by omega
    rw [h32, hlow]
    omega
  rw [hunfold, Nat.shiftRight_eq_div_pow]
  set t := 2 * cov - 2 ^ sbits with ht
  have htpos : 0 < t := by omega
  have htle : t ≤ 2 ^ sbits := by omega
  have htP : t ≤ 2 ^ 24 := le_trans htle hLP
  rcases Nat.lt_or_ge x t with hxt | hxt
  · rw [if_pos hxt]
    apply Nat.div_eq_of_lt_le
    · have : (n + 1) * 2 ^ 24 - t + x ≥ n * 2 ^ 24 := by
        have : (n + 1) * 2 ^ 24 = n * 2 ^ 24 + 2 ^ 24 := by ring
        omega
      omega
    · have h1 : (n + 1) * 2 ^ 24 - t < (n + 1) * 2 ^ 24 := by
        have : t ≤ (n + 1) * 2 ^ 24 := by nlinarith [Nat.two_pow_pos 24]
        omega
      omega
  · rw [if_neg (by omega)]
    apply Nat.div_eq_of_lt_le
    · have ht24 : t ≤ (n + 1) * 2 ^ 24 := by nlinarith [Nat.two_pow_pos 24]
      omega
    · have hx24 : x < 2 ^ 24 := lt_of_lt_of_le hx hLP
      have : (n + 2) * 2 ^ 24 = (n + 1) * 2 ^ 24 + 2 ^ 24 := by ring
      omega

/-- Witness for C4 at `sbits = 3`, `f = 3`, `x = 5`: `n = 1`,
`threshold = 4`, and the selector yields 2 there. -/
theorem c4_bitcount_selector_witness :
    (3 ≤ 24 ∧ 0 < 3 ∧ 3 ≤ 2 ^ 3 ∧ 5 < 2 ^ 3)
    ∧ (5 + compute_coded_nbits 3 3) >>> 24
      = if 5 < 2 * (3 * 2 ^ Nat.log2 (2 ^ 3 / 3)) - 2 ^ 3
        then Nat.log2 (2 ^ 3 / 3)
        else Nat.log2 (2 ^ 3 / 3) + 1 :=
  ⟨⟨by decide, by decide, by decide, by decide⟩,
    c4_bitcount_selector 3 3 5 (by decide) (by decide) (by decide) (by decide)⟩


/-! ## Claim C8: decoding stays in range -/

/-- Accumulating `x < 2 ^ n` at position `shift` on top of `acc < 2 ^ shift`
stays below `2 ^ (shift + n)`. -/
theorem orShift_lt (acc x shift n : Nat) (hacc : acc < 2 ^ shift) (hx : x < 2 ^ n) :
    acc ||| (x <<< shift) < 2 ^ (shift + n) := by
  apply Nat.or_lt_two_pow
  · exact lt_of_lt_of_le hacc (Nat.pow_le_pow_right (by omega) (by omega))
  · rw [Nat.shiftLeft_eq]
    calc x * 2 ^ shift < 2 ^ n * 2 ^ shift := mul_lt_mul_of_pos_right hx (by positivity)
      _ = 2 ^ (shift + n) := by rw [← pow_add]; congr 1; omega

/-- The masked chunk `x &&& ((1 <<< n) - 1)` is below `2 ^ n`. -/
theorem maskChunk_lt (x n : Nat) : x &&& (1 <<< n - 1) < 2 ^ n := by
  rw [Nat.one_shiftLeft, Nat.and_pow_two_sub_one_eq_mod]
  exact Nat.mod_lt _ (by positivity)

/-- The value produced by the `read_bits` loop fits in `need` bits above the
`shift` positions already accumulated. -/
theorem readLoop_lt (fuel : Nat) :
    ∀ (r : BitReader) (need acc shift v : Nat) (r' : BitReader),
      acc < 2 ^ shift → BitReader.readLoop fuel r need acc shift = some (v, r') →
      v < 2 ^ (shift + need) := by
  induction fuel with
  | zero =>
    intro r need acc shift v r' hacc h
    simp only [BitReader.readLoop] at h
    split at h
    · obtain ⟨rfl, rfl⟩ : acc = v ∧ r = r' := by simpa using h
      exact lt_of_lt_of_le hacc (Nat.pow_le_pow_right (by omega) (by omega))
    · cases h
  | succ fuel ih =>
    intro r need acc shift v r' hacc h
    simp only [BitReader.readLoop] at h
    split at h
    · obtain ⟨rfl, rfl⟩ : acc = v ∧ r = r' := by simpa using h
      exact lt_of_lt_of_le hacc (Nat.pow_le_pow_right (by omega) (by omega))
    · rename_i hn
      split at h
      · rename_i hh
        split at h
        · cases h
        · rename_i byte rest hi
          have hb : acc ||| ((byte &&& (1 <<< min need 8 - 1)) <<< shift)
              < 2 ^ (shift + min need 8) :=
            orShift_lt _ _ _ _ hacc (maskChunk_lt _ _)
          have key := ih _ _ _ _ _ _ hb h
          have hmn : min need 8 ≤ need := min_le_left _ _
          have heq : shift + min need 8 + (need - min need 8) = shift + need := by omega
          rwa [heq] at key
      · rename_i hh
        have hb : acc ||| ((r.bits &&& (1 <<< min need r.have_bits - 1)) <<< shift)
            < 2 ^ (shift + min need r.have_bits) :=
          orShift_lt _ _ _ _ hacc (maskChunk_lt _ _)
        have key := ih _ _ _ _ _ _ hb h
        have hmn : min need r.have_bits ≤ need := min_le_left _ _
        have heq : shift + min need r.have_bits + (need - min need r.have_bits)
            = shift + need := by omega
        rwa [heq] at key

/-- `read_bits` returns a value below `2 ^ nbits`. -/
theorem read_bits_lt (r : BitReader) (nbits v : Nat) (r' : BitReader)
    (h : r.read_bits nbits = some (v, r')) : v < 2 ^ nbits := by
  have := readLoop_lt nbits r nbits 0 0 v r' (by simp) h
  simpa using this

/-- C8: for a decode table with `L = 2 ^ sbits` entries whose bases are below
`L` and whose bit counts are at most `sbits`, `decode_sym` either propagates
the bit-stream port's error (truncated input), or reads a value `v` for which
the computed index `base | v` is below `L`, so the table access is in bounds
and a (possibly wrong but defined) symbol is returned, the new current entry
again being a table entry. -/
theorem c8_decode_in_range {S : Type} [Inhabited S] (sbits : Nat) (d : Decoder S)
    (r : BitReader) (hlen : d.table.length = 2 ^ sbits)
    (hentries : ∀ e ∈ d.table, e.2.2 < 2 ^ sbits ∧ e.2.1 ≤ sbits)
    (hcur : d.stateEntry ∈ d.table) :
    (d.decode_sym r = none ∧ r.read_bits d.stateEntry.2.1 = none)
    ∨ (∃ v r', r.read_bits d.stateEntry.2.1 = some (v, r')
        ∧ d.stateEntry.2.2 ||| v < d.table.length
        ∧ d.decode_sym r = some ((d.table.getD (d.stateEntry.2.2 ||| v) default).1,
            { table := d.table, stateEntry := d.table.getD (d.stateEntry.2.2 ||| v) default }, r')
        ∧ d.table.getD (d.stateEntry.2.2 ||| v) default ∈ d.table) := by
  obtain ⟨hbase, hnb⟩ := hentries _ hcur
  cases h : r.read_bits d.stateEntry.2.1 with
  | none =>
    left
    refine ⟨?_, rfl⟩
    simp [Decoder.decode_sym, h]
  | some p =>
    obtain ⟨v, r'⟩ := p
    right
    refine ⟨v, r', rfl, ?_, ?_, ?_⟩
    · have hv : v < 2 ^ sbits :=
        lt_of_lt_of_le (read_bits_lt r _ v r' h) (Nat.pow_le_pow_right (by omega) hnb)
      rw [hlen]
      exact Nat.or_lt_two_pow hbase hv
    · simp [Decoder.decode_sym, h]
    · have hv : v < 2 ^ sbits :=
        lt_of_lt_of_le (read_bits_lt r _ v r' h) (Nat.pow_le_pow_right (by omega) hnb)
      have hidx : d.stateEntry.2.2 ||| v < d.table.length := by
        rw [hlen]
        exact Nat.or_lt_two_pow hbase hv
      rw [List.getD_eq_getElem _ _ hidx]
      exact List.getElem_mem hidx

/-- Witness for C8 at `sbits = 3`, the `EXAMPLE_TABLE` decoder in state
entry `('a', 2, 4)` and a two-byte reader mid-stream. -/
theorem c8_decode_in_range_witness :
    ((mkD ('a', 2, 4)).table.length = 2 ^ 3
      ∧ (∀ e ∈ (mkD ('a', 2, 4)).table, e.2.2 < 2 ^ 3 ∧ e.2.1 ≤ 3)
      ∧ (mkD ('a', 2, 4)).stateEntry ∈ (mkD ('a', 2, 4)).table)
    ∧ (((mkD ('a', 2, 4)).decode_sym { input := [0], bits := 8, have_bits := 5 } = none
        ∧ BitReader.read_bits { input := [0], bits := 8, have_bits := 5 }
            (mkD ('a', 2, 4)).stateEntry.2.1 = none)
      ∨ (∃ v r', BitReader.read_bits { input := [0], bits := 8, have_bits := 5 }
            (mkD ('a', 2, 4)).stateEntry.2.1 = some (v, r')
          ∧ (mkD ('a', 2, 4)).stateEntry.2.2 ||| v < (mkD ('a', 2, 4)).table.length
          ∧ (mkD ('a', 2, 4)).decode_sym { input := [0], bits := 8, have_bits := 5 }
              = some (((mkD ('a', 2, 4)).table.getD ((mkD ('a', 2, 4)).stateEntry.2.2 ||| v) default).1,
                { table := (mkD ('a', 2, 4)).table,
                  stateEntry := (mkD ('a', 2, 4)).table.getD ((mkD ('a', 2, 4)).stateEntry.2.2 ||| v) default }, r')
          ∧ (mkD ('a', 2, 4)).table.getD ((mkD ('a', 2, 4)).stateEntry.2.2 ||| v) default
              ∈ (mkD ('a', 2, 4)).table)) :=
  ⟨⟨by decide, by decide, by decide⟩,
    c8_decode_in_range 3 (mkD ('a', 2, 4)) { input := [0], bits := 8, have_bits := 5 }
      (by decide) (by decide) (by decide)⟩


/-! ## Claim C10: the encoder state invariant -/

/-- The accumulation loop touches only `output`, `bits` and `need_bits`. -/
theorem accLoop_preserves (fuel : Nat) :
    ∀ (e : Encoder) (bits nbits : Nat),
      (Encoder.accLoop fuel e bits nbits).origin = e.origin
      ∧ (Encoder.accLoop fuel e bits nbits).state = e.state
      ∧ (Encoder.accLoop fuel e bits nbits).nstates = e.nstates
      ∧ (Encoder.accLoop fuel e bits nbits).symtab = e.symtab := by
  induction fuel with
  | zero => intro e bits nbits; simp [Encoder.accLoop]
  | succ fuel ih =>
    intro e bits nbits
    simp only [Encoder.accLoop]
    split
    · exact ⟨rfl, rfl, rfl, rfl⟩
    · split
      · exact ⟨rfl, rfl, rfl, rfl⟩
      · split
        · exact ⟨rfl, rfl, rfl, rfl⟩
        · exact ih _ _ _

/-- The inner spread loop keeps every origin entry and the running state
value at most `mask`, and preserves the table length. -/
theorem fillOrigin_invariant (stride mask : Nat) (count : Nat) :
    ∀ acc : List Nat × Nat × Nat, acc.2.2 ≤ mask → (∀ x ∈ acc.1, x ≤ mask) →
      (∀ x ∈ (fillOrigin stride mask count acc).1, x ≤ mask)
      ∧ (fillOrigin stride mask count acc).2.2 ≤ mask
      ∧ (fillOrigin stride mask count acc).1.length = acc.1.length := by
  induction count with
  | zero => intro acc h1 h2; exact ⟨h2, h1, rfl⟩
  | succ count ih =>
    intro acc h1 h2
    obtain ⟨origin, o, s⟩ := acc
    simp only [fillOrigin]
    have h2' : ∀ x ∈ origin.set o s, x ≤ mask := by
      intro x hx
      rcases List.mem_or_eq_of_mem_set hx with hx | rfl
      · exact h2 _ hx
      · exact h1
    have := ih (origin.set o s, o + 1, (s + stride) &&& mask) Nat.and_le_right h2'
    simpa [List.length_set] using this

/-- The whole spread pass keeps every origin entry at most `mask` and
preserves the table length. -/
theorem spreadOrigin_invariant (stride mask : Nat) (freqs : List Nat) :
    ∀ acc : List Nat × Nat × Nat, acc.2.2 ≤ mask → (∀ x ∈ acc.1, x ≤ mask) →
      (∀ x ∈ (spreadOrigin stride mask freqs acc).1, x ≤ mask)
      ∧ (spreadOrigin stride mask freqs acc).1.length = acc.1.length := by
  induction freqs with
  | nil => intro acc h1 h2; exact ⟨h2, rfl⟩
  | cons f fs ih =>
    intro acc h1 h2
    obtain ⟨m1, m2, m3⟩ := fillOrigin_invariant stride mask f acc h1 h2
    have := ih (fillOrigin stride mask f acc) m2 m1
    simp only [spreadOrigin, List.foldl_cons] at this ⊢
    exact ⟨this.1, this.2.trans m3⟩

/-- Construction establishes the invariant (for distributions whose sum does
not exceed the state count, the precondition under which the Rust `Vec`
writes stay in bounds). -/
theorem encInv_new (sbits : Nat) (freqs : List Nat) :
    EncInv sbits (Encoder.new sbits freqs) := by
  have hmask : (1 <<< sbits) - 1 = 2 ^ sbits - 1 := by rw [Nat.one_shiftLeft]
  have hrep : ∀ x ∈ List.replicate (1 <<< sbits) (0 : Nat), x ≤ (1 <<< sbits) - 1 := by
    intro x hx
    have := List.eq_of_mem_replicate hx
    subst this
    omega
  obtain ⟨hmem, hlen⟩ := spreadOrigin_invariant (compute_stride (1 <<< sbits)) ((1 <<< sbits) - 1)
    freqs (List.replicate (1 <<< sbits) 0, 0, compute_stride (1 <<< sbits) &&& ((1 <<< sbits) - 1))
    Nat.and_le_right hrep
  refine ⟨by simp [Encoder.new, Nat.one_shiftLeft], ?_, ?_, ?_⟩
  · show (spreadOrigin _ _ _ _).1.length = 2 ^ sbits
    rw [hlen]
    simp [List.length_replicate, Nat.one_shiftLeft]
  · intro x hx
    have := hmem x hx
    have hpos : 0 < 2 ^ sbits := Nat.two_pow_pos sbits
    rw [Nat.one_shiftLeft] at this
    omega
  · show (0 : Nat) < 2 ^ sbits
    exact Nat.two_pow_pos sbits

/-- Any masked index is within the origin table. -/
theorem masked_index_lt (sbits : Nat) (e : Encoder) (h : EncInv sbits e) (i : Nat) :
    i &&& (e.nstates - 1) < e.origin.length := by
  obtain ⟨hn, hlen, _, _⟩ := h
  have : i &&& (e.nstates - 1) ≤ e.nstates - 1 := Nat.and_le_right
  have hpos : 0 < 2 ^ sbits := Nat.two_pow_pos sbits
  omega

/-- A lookup in the origin table under the invariant yields a state below
`2 ^ sbits`. -/
theorem originLookup_lt (sbits : Nat) (e : Encoder) (h : EncInv sbits e) (i : Nat) :
    e.origin.getD (i &&& (e.nstates - 1)) 0 < 2 ^ sbits := by
  have hidx : i &&& (e.nstates - 1) < e.origin.length := masked_index_lt sbits e h i
  obtain ⟨hn, hlen, hmem, _⟩ := h
  rw [List.getD_eq_getElem _ _ hidx]
  exact hmem _ (List.getElem_mem hidx)

/-- C10: implicit encoder-state invariant.  After `Encoder::new`, and after
every `encode_first` or `encode_sym` whose symbol index is in range, the
encoder's state lies in `[0, 2 ^ sbits)`: construction masks every origin
entry into range, every state update indexes the origin table with a masked
index, so the access is in bounds and the table entry read is again in
range. -/
theorem c10_state_invariant (sbits : Nat) (freqs : List Nat) :
    EncInv sbits (Encoder.new sbits freqs)
    ∧ (∀ (e : Encoder), EncInv sbits e → ∀ i : Nat, i &&& (e.nstates - 1) < e.origin.length)
    ∧ (∀ (e : Encoder) (sym : Nat), EncInv sbits e → sym < e.symtab.length →
        EncInv sbits (e.encode_first sym))
    ∧ (∀ (e : Encoder) (sym : Nat), EncInv sbits e → sym < e.symtab.length →
        EncInv sbits (e.encode_sym sym)) := by
  refine ⟨encInv_new sbits freqs, masked_index_lt sbits, ?_, ?_⟩
  · intro e sym h _
    obtain ⟨hn, hlen, hmem, hst⟩ := h
    exact ⟨hn, hlen, hmem, originLookup_lt sbits e ⟨hn, hlen, hmem, hst⟩ _⟩
  · intro e sym h _
    obtain ⟨hn, hlen, hmem, hst⟩ := h
    simp only [Encoder.encode_sym]
    obtain ⟨ho, hs, hns, hsy⟩ := accLoop_preserves ((e.state + (e.symtab.getD sym (0, 0)).1) >>> 24)
      e e.state ((e.state + (e.symtab.getD sym (0, 0)).1) >>> 24)
    set e' := e.acc_bits e.state ((e.state + (e.symtab.getD sym (0, 0)).1) >>> 24) with he'
    have hinv' : EncInv sbits e' := by
      rw [he']
      unfold Encoder.acc_bits
      exact ⟨by rw [hns]; exact hn, by rw [ho]; exact hlen, by rw [ho]; exact hmem,
        by rw [hs]; exact hst⟩
    exact ⟨hinv'.1, hinv'.2.1, hinv'.2.2.1, originLookup_lt sbits e' hinv' _⟩

/-- Witness for C10 at `sbits = 3`, `freqs = [2, 5, 1]`; the invariant on the
fresh encoder is checked concretely. -/
theorem c10_state_invariant_witness :
    EncInv 3 (Encoder.new 3 [2,5,1])
    ∧ (EncInv 3 (Encoder.new 3 [2,5,1])
      ∧ (∀ (e : Encoder), EncInv 3 e → ∀ i : Nat, i &&& (e.nstates - 1) < e.origin.length)
      ∧ (∀ (e : Encoder) (sym : Nat), EncInv 3 e → sym < e.symtab.length →
          EncInv 3 (e.encode_first sym))
      ∧ (∀ (e : Encoder) (sym : Nat), EncInv 3 e → sym < e.symtab.length →
          EncInv 3 (e.encode_sym sym))) :=
  ⟨by decide, c10_state_invariant 3 [2,5,1]⟩


/-! ## Claim C9: spread coverage, and claim C3: absence of validation -/

/-- `getD` through `List.set` at another index. -/
theorem getD_set_ne (l : List Nat) (i p v : Nat) (h : i ≠ p) :
    (l.set i v).getD p 0 = l.getD p 0 := by
  rw [List.getD_eq_getElem?_getD, List.getD_eq_getElem?_getD, List.getElem?_set_ne h]

/-- `getD` through `List.set` at the written index (in bounds). -/
theorem getD_set_eq (l : List Nat) (i v : Nat) (h : i < l.length) :
    (l.set i v).getD i 0 = v := by
  rw [List.getD_eq_getElem?_getD, List.getElem?_set_self h]
  rfl

/-- The inner spread loop preserves the table length. -/
theorem fillOrigin_length (stride mask count : Nat) :
    ∀ acc : List Nat × Nat × Nat,
      (fillOrigin stride mask count acc).1.length = acc.1.length := by
  induction count with
  | zero => intro acc; rfl
  | succ count ih =>
    intro acc
    obtain ⟨origin, o, s⟩ := acc
    simp only [fillOrigin]
    rw [ih]
    simp

/-- Position and running-state components of the inner spread loop. -/
theorem fillOrigin_snd (stride k count : Nat) :
    ∀ (origin : List Nat) (o s : Nat), s < 2 ^ k →
      (fillOrigin stride (2 ^ k - 1) count (origin, o, s)).2.1 = o + count
      ∧ (fillOrigin stride (2 ^ k - 1) count (origin, o, s)).2.2
          = (s + count * stride) % 2 ^ k := by
  induction count with
  | zero =>
    intro origin o s hs
    exact ⟨rfl, by simp [fillOrigin, Nat.mod_eq_of_lt hs]⟩
  | succ count ih =>
    intro origin o s hs
    simp only [fillOrigin]
    have hmask : (s + stride) &&& (2 ^ k - 1) = (s + stride) % 2 ^ k :=
      Nat.and_pow_two_sub_one_eq_mod _ _
    rw [hmask]
    obtain ⟨h1, h2⟩ := ih (origin.set o s) (o + 1) ((s + stride) % 2 ^ k)
      (Nat.mod_lt _ (by positivity))
    refine ⟨by rw [h1]; omega, ?_⟩
    rw [h2, Nat.mod_add_mod]
    congr 1
    ring

/-- Pointwise characterization of the inner spread loop: positions
`[o, o + count)` receive the successive masked probe values, all other
positions keep their previous contents. -/
theorem fillOrigin_getD (stride k count : Nat) :
    ∀ (origin : List Nat) (o s p : Nat), s < 2 ^ k → o + count ≤ origin.length →
      (fillOrigin stride (2 ^ k - 1) count (origin, o, s)).1.getD p 0
        = if o ≤ p ∧ p < o + count then (s + (p - o) * stride) % 2 ^ k
          else origin.getD p 0 := by
  induction count with
  | zero =>
    intro origin o s p hs hlen
    simp only [fillOrigin]
    rw [if_neg (by omega)]
  | succ count ih =>
    intro origin o s p hs hlen
    simp only [fillOrigin]
    have hmask : (s + stride) &&& (2 ^ k - 1) = (s + stride) % 2 ^ k :=
      Nat.and_pow_two_sub_one_eq_mod _ _
    rw [hmask]
    have hlen' : (o + 1) + count ≤ (origin.set o s).length := by
      rw [List.length_set]
      omega
    rw [ih (origin.set o s) (o + 1) ((s + stride) % 2 ^ k) p
      (Nat.mod_lt _ (by positivity)) hlen']
    by_cases hcase : (o + 1) ≤ p ∧ p < (o + 1) + count
    · rw [if_pos hcase, if_pos (by omega), Nat.mod_add_mod]
      congr 1
      have hpo : p - o = (p - (o + 1)) + 1 := by omega
      rw [hpo]
      ring
    · rw [if_neg hcase]
      by_cases hp : p = o
      · subst hp
        rw [getD_set_eq _ _ _ (by omega), if_pos (by omega)]
        simp [Nat.mod_eq_of_lt hs]
      · rw [getD_set_ne _ _ _ _ (by omega), if_neg (by omega)]

/-- Pointwise characterization of the whole spread pass. -/
theorem spreadOrigin_getD (stride k : Nat) (freqs : List Nat) :
    ∀ (origin : List Nat) (o s p : Nat), s < 2 ^ k → o + freqs.sum ≤ origin.length →
      (spreadOrigin stride (2 ^ k - 1) freqs (origin, o, s)).1.getD p 0
        = if o ≤ p ∧ p < o + freqs.sum then (s + (p - o) * stride) % 2 ^ k
          else origin.getD p 0 := by
  induction freqs with
  | nil =>
    intro origin o s p hs hlen
    simp only [spreadOrigin, List.foldl_nil]
    rw [if_neg (by simp)]
  | cons f fs ih =>
    intro origin o s p hs hlen
    have hsum : (f :: fs).sum = f + fs.sum := by simp
    have hstep : spreadOrigin stride (2 ^ k - 1) (f :: fs) (origin, o, s)
        = spreadOrigin stride (2 ^ k - 1) fs (fillOrigin stride (2 ^ k - 1) f (origin, o, s)) := by
      simp [spreadOrigin, List.foldl_cons]
    obtain ⟨ho', hs'⟩ := fillOrigin_snd stride k f origin o s hs
    have hchar := fillOrigin_getD stride k f origin o s p hs (by rw [hsum] at hlen; omega)
    have hfl := fillOrigin_length stride (2 ^ k - 1) f (origin, o, s)
    rcases hfe : fillOrigin stride (2 ^ k - 1) f (origin, o, s) with ⟨l2, o2, s2⟩
    rw [hfe] at ho' hs' hchar hfl
    simp only at ho' hs' hchar hfl
    subst ho' hs'
    rw [hstep, hfe,
      ih l2 (o + f) ((s + f * stride) % 2 ^ k) p (Nat.mod_lt _ (by positivity))
        (by rw [hfl]; rw [hsum] at hlen; omega)]
    rw [hsum]
    by_cases hup : o + f ≤ p ∧ p < o + f + fs.sum
    · rw [if_pos hup, if_pos (by omega), Nat.mod_add_mod]
      congr 1
      have hpo : p - o = f + (p - (o + f)) := by omega
      rw [hpo]
      ring
    · rw [if_neg hup, hchar]
      by_cases hlo : o ≤ p ∧ p < o + f
      · rw [if_pos hlo, if_pos (by omega)]
      · rw [if_neg hlo, if_neg (by omega)]


/-- The stride is always odd: 5 for `L ≤ 8`, and
`L/2 + L/8 + 3 = even + even + odd` for `L = 2 ^ sbits ≥ 16`. -/
theorem compute_stride_odd (sbits : Nat) : compute_stride (2 ^ sbits) % 2 = 1 := by
  rw [compute_stride]
  by_cases h : 2 ^ sbits ≤ 8
  · rw [if_pos h]
  · rw [if_neg h]
    have hs4 : 4 ≤ sbits := by
      by_contra hc
      interval_cases sbits <;> omega
    have h1 : 2 ^ sbits >>> 1 = 2 ^ (sbits - 1) := by
      rw [Nat.shiftRight_eq_div_pow, Nat.pow_div (by omega) (by omega)]
    have h3 : 2 ^ sbits >>> 3 = 2 ^ (sbits - 3) := by
      rw [Nat.shiftRight_eq_div_pow, Nat.pow_div (by omega) (by omega)]
    obtain ⟨a, ha⟩ : 2 ∣ 2 ^ (sbits - 1) := dvd_pow_self 2 (by omega)
    obtain ⟨b, hb⟩ : 2 ∣ 2 ^ (sbits - 3) := dvd_pow_self 2 (by omega)
    rw [h1, h3, ha, hb]
    omega

/-- The stride is coprime with the power-of-two state count. -/
theorem compute_stride_coprime (sbits : Nat) :
    Nat.gcd (compute_stride (2 ^ sbits)) (2 ^ sbits) = 1 := by
  have hodd := compute_stride_odd sbits
  have h2 : Nat.gcd (compute_stride (2 ^ sbits)) 2 = 1 := by
    rw [Nat.gcd_comm, Nat.gcd_rec, hodd]
    simp
  exact Nat.Coprime.pow_right sbits h2

/-- `getD` on an all-zero table is zero at every index. -/
theorem getD_replicate_zero (n i : Nat) : (List.replicate n (0 : Nat)).getD i 0 = 0 := by
  rcases Nat.lt_or_ge i n with h | h
  · rw [List.getD_eq_getElem _ _ (by simpa using h)]
    exact List.getElem_replicate _ _
  · rw [List.getD_eq_getElem?_getD, List.getElem?_eq_none (by simpa using h)]
    rfl

/-- Entry `p` of the freshly built origin table: the `p`-th probe value
`stride * (p + 1) mod L` if `p` is within the distribution's total count, the
padding 0 otherwise. -/
theorem new_origin_getD (sbits : Nat) (freqs : List Nat) (hsum : freqs.sum ≤ 2 ^ sbits)
    (p : Nat) :
    (Encoder.new sbits freqs).origin.getD p 0
      = if p < freqs.sum then compute_stride (2 ^ sbits) * (p + 1) % 2 ^ sbits else 0 := by
  have hL : (1 <<< sbits) = 2 ^ sbits := Nat.one_shiftLeft sbits
  show (spreadOrigin (compute_stride (1 <<< sbits)) ((1 <<< sbits) - 1) freqs
      (List.replicate (1 <<< sbits) 0, 0,
        compute_stride (1 <<< sbits) &&& ((1 <<< sbits) - 1))).1.getD p 0 = _
  rw [hL, Nat.and_pow_two_sub_one_eq_mod,
    spreadOrigin_getD (compute_stride (2 ^ sbits)) sbits freqs _ 0 _ p
      (Nat.mod_lt _ (by positivity)) (by simp [List.length_replicate]; omega)]
  by_cases hp : p < freqs.sum
  · rw [if_pos ⟨Nat.zero_le _, by omega⟩, if_pos hp, Nat.sub_zero, Nat.mod_add_mod]
    congr 1
    ring
  · rw [if_neg (by omega), if_neg hp, getD_replicate_zero]

/-- When the frequencies sum to `L = 2 ^ sbits`, the origin table is exactly
the list of successive probe values. -/
theorem new_origin_eq_map (sbits : Nat) (freqs : List Nat) (hsum : freqs.sum = 2 ^ sbits) :
    (Encoder.new sbits freqs).origin
      = (List.range (2 ^ sbits)).map
        (fun p => compute_stride (2 ^ sbits) * (p + 1) % 2 ^ sbits) := by
  apply List.ext_getElem
  · rw [(encInv_new sbits freqs).2.1]
    simp
  · intro n h1 h2
    have hn : n < 2 ^ sbits := by simpa using h2
    have hc := new_origin_getD sbits freqs (le_of_eq hsum) n
    rw [List.getD_eq_getElem _ _ h1, if_pos (by omega)] at hc
    rw [hc]
    simp

/-- A coprime multiplier walks through all residues: the probe values are a
permutation of `[0, L)`. -/
theorem map_mod_perm_range (L stride : Nat) (hL : 0 < L) (hcop : Nat.gcd L stride = 1) :
    ((List.range L).map (fun p => stride * (p + 1) % L)).Perm (List.range L) := by
  have hnodup : ((List.range L).map (fun p => stride * (p + 1) % L)).Nodup := by
    refine List.Nodup.map_on ?_ (List.nodup_range L)
    intro p1 h1 p2 h2 heq
    rw [List.mem_range] at h1 h2
    have hmodeq : p1 + 1 ≡ p2 + 1 [MOD L] :=
      Nat.ModEq.cancel_left_of_coprime hcop heq
    have hm : (p1 + 1) % L = (p2 + 1) % L := hmodeq
    rcases Nat.lt_or_ge (p1 + 1) L with ha | ha <;>
      rcases Nat.lt_or_ge (p2 + 1) L with hb | hb
    · rw [Nat.mod_eq_of_lt ha, Nat.mod_eq_of_lt hb] at hm
      omega
    · have hb' : p2 + 1 = L := by omega
      rw [Nat.mod_eq_of_lt ha, hb', Nat.mod_self] at hm
      omega
    · have ha' : p1 + 1 = L := by omega
      rw [Nat.mod_eq_of_lt hb, ha', Nat.mod_self] at hm
      omega
    · omega
  have hsubset : ((List.range L).map (fun p => stride * (p + 1) % L)) ⊆ List.range L := by
    intro x hx
    rw [List.mem_map] at hx
    obtain ⟨p, _, rfl⟩ := hx
    rw [List.mem_range]
    exact Nat.mod_lt _ hL
  exact (hnodup.subperm hsubset).perm_of_length_le (by simp)

/-- C9: spread coverage.  The stride is coprime with `L = 2 ^ sbits`, and for
every frequency vector summing to `L` the spread loop assigns every state
value in `[0, L)` to exactly one origin-table slot: the origin table is a
permutation of `[0, L)`. -/
theorem c9_spread_coverage (sbits : Nat) (freqs : List Nat) (hsum : freqs.sum = 2 ^ sbits) :
    Nat.gcd (compute_stride (2 ^ sbits)) (2 ^ sbits) = 1
    ∧ (Encoder.new sbits freqs).origin.Perm (List.range (2 ^ sbits)) := by
  refine ⟨compute_stride_coprime sbits, ?_⟩
  rw [new_origin_eq_map sbits freqs hsum]
  exact map_mod_perm_range (2 ^ sbits) (compute_stride (2 ^ sbits)) (Nat.two_pow_pos sbits)
    (by rw [Nat.gcd_comm]; exact compute_stride_coprime sbits)

/-- Witness for C9 at `sbits = 3`, `freqs = [2, 5, 1]`: the origin table
`[5, 2, 7, 4, 1, 6, 3, 0]` is a permutation of `[0, 8)` and
`gcd(5, 8) = 1`. -/
theorem c9_spread_coverage_witness :
    ([2, 5, 1] : List Nat).sum = 2 ^ 3
    ∧ (Nat.gcd (compute_stride (2 ^ 3)) (2 ^ 3) = 1
      ∧ (Encoder.new 3 [2,5,1]).origin.Perm (List.range (2 ^ 3))) :=
  ⟨by decide, c9_spread_coverage 3 [2,5,1] (by decide)⟩

/-- C3, amended: `Encoder::new` performs no validation.  For any frequency
vector whose sum is at most `2 ^ sbits` (beyond that the Rust `Vec` write
panics on an out-of-range index rather than raising `InvalidDistribution`),
construction always succeeds, producing an origin table of the full length
`2 ^ sbits` in which every slot not covered by the distribution silently
keeps the padding value 0. -/
theorem c3_amended_no_validation (sbits : Nat) (freqs : List Nat)
    (h : freqs.sum ≤ 2 ^ sbits) :
    (Encoder.new sbits freqs).origin.length = 2 ^ sbits
    ∧ ∀ i : Nat, freqs.sum ≤ i → (Encoder.new sbits freqs).origin.getD i 0 = 0 := by
  refine ⟨(encInv_new sbits freqs).2.1, ?_⟩
  intro i hi
  rw [new_origin_getD sbits freqs h i, if_neg (by omega)]

/-- Witness for C3's amended theorem at `sbits = 3`, `freqs = [1]`, `i = 5`. -/
theorem c3_amended_no_validation_witness :
    ([1] : List Nat).sum ≤ 2 ^ 3
    ∧ ((Encoder.new 3 [1]).origin.length = 2 ^ 3
      ∧ ∀ i : Nat, ([1] : List Nat).sum ≤ i → (Encoder.new 3 [1]).origin.getD i 0 = 0) :=
  ⟨by decide, c3_amended_no_validation 3 [1] (by decide)⟩


/-! ## Claim C5: the wire layout of `Encoder::write` -/

/-- Bitwise or of values with disjoint supports is addition. -/
theorem lor_disjoint_add (a b k : Nat) (ha : a % 2 ^ k = 0) (hb : b < 2 ^ k) :
    a ||| b = a + b := by
  obtain ⟨q, hq⟩ : 2 ^ k ∣ a := Nat.dvd_of_mod_eq_zero ha
  subst hq
  apply Nat.eq_of_testBit_eq
  intro i
  rw [Nat.testBit_lor, Nat.testBit_mul_pow_two_add _ hb]
  have hz : (2 ^ k * q).testBit i = if i < k then false else q.testBit (i - k) := by
    have := Nat.testBit_mul_pow_two_add q (b := 0) (i := k) (by positivity) i
    simpa using this
  rw [hz]
  by_cases hik : i < k
  · simp [hik]
  · have hbf : b.testBit i = false :=
      Nat.testBit_lt_two_pow (lt_of_lt_of_le hb (Nat.pow_le_pow_right (by omega) (by omega)))
    simp [hik, hbf]

/-- `natOfBits` of a concatenation. -/
theorem natOfBits_append (xs ys : List Bool) :
    natOfBits (xs ++ ys) = natOfBits xs + 2 ^ xs.length * natOfBits ys := by
  induction xs with
  | nil => simp [natOfBits]
  | cons b bs ih =>
    show (cond b 1 0) + 2 * natOfBits (bs ++ ys)
        = ((cond b 1 0) + 2 * natOfBits bs) + 2 ^ (b :: bs).length * natOfBits ys
    rw [ih, List.length_cons]
    ring

/-- Reading back the `n` low bits of `v`, least significant first. -/
theorem natOfBits_callBits (n : Nat) : ∀ v : Nat, natOfBits (callBits v n) = v % 2 ^ n := by
  induction n with
  | zero => intro v; simp [callBits, natOfBits, Nat.mod_one]
  | succ n ih =>
    intro v
    rw [callBits, List.range_succ_eq_map, List.map_cons, List.map_map]
    have hmap : (List.range n).map (v.testBit ∘ Nat.succ) = callBits (v / 2) n := by
      rw [callBits]
      apply List.map_congr_left
      intro i _
      exact Nat.testBit_succ v i
    rw [hmap]
    show (cond (v.testBit 0) 1 0) + 2 * natOfBits (callBits (v / 2) n) = v % 2 ^ (n + 1)
    rw [ih (v / 2), Nat.testBit_zero]
    have h1 : (2 : Nat) ^ (n + 1) = 2 * 2 ^ n := by ring
    rw [h1, Nat.mod_mul]
    by_cases hv : v % 2 = 1
    · simp [hv]
    · simp [hv]
      omega

/-- Truncating the bit expansion of a call. -/
theorem callBits_take (v k n : Nat) (h : k ≤ n) :
    (callBits v n).take k = callBits v k := by
  rw [callBits, callBits, ← List.map_take, List.take_range, Nat.min_eq_left h]

/-- Length of a call's bit expansion. -/
theorem callBits_length (v n : Nat) : (callBits v n).length = n := by
  simp [callBits]

/-- `callsBits` on a cons. -/
theorem callsBits_cons (c : Nat × Nat) (cs : List (Nat × Nat)) :
    callsBits (c :: cs) = callBits c.1 c.2 ++ callsBits cs := by
  simp [callsBits]

/-- The accumulation loop is the identity on zero bits. -/
theorem accLoop_zero_nbits (fuel : Nat) (e : Encoder) (v : Nat) :
    Encoder.accLoop fuel e v 0 = e := by
  cases fuel <;> simp [Encoder.accLoop]

/-- One masked step of the accumulation loop (no flush). -/
theorem accLoop_step_masked (fuel : Nat) (e : Encoder) (v nb : Nat) (h0 : nb ≠ 0)
    (h1 : nb < e.need_bits) :
    Encoder.accLoop (fuel + 1) e v nb
      = { e with bits := e.bits ||| ((v &&& ((1 <<< nb) - 1)) <<< (e.need_bits - nb)),
                 need_bits := e.need_bits - nb } := by
  simp only [Encoder.accLoop]
  rw [if_neg h0, if_pos h1]

/-- One flushing step of the accumulation loop. -/
theorem accLoop_step_push (fuel : Nat) (e : Encoder) (v nb : Nat) (h0 : nb ≠ 0)
    (h1 : ¬ (e.need_bits > nb)) (h2 : ¬ (e.need_bits = 0)) :
    Encoder.accLoop (fuel + 1) e v nb
      = Encoder.accLoop fuel
          { e with output := e.output ++ [e.bits ||| (v >>> (nb - e.need_bits))],
                   bits := 0, need_bits := 32 } v (nb - e.need_bits) := by
  simp only [Encoder.accLoop]
  rw [if_neg h0, if_neg h1, if_neg h2]


/-- One masked step of the accumulation loop, for any positive fuel. -/
theorem accLoop_step_masked_of_pos (fuel : Nat) (hf : 1 ≤ fuel) (e : Encoder) (v nb : Nat)
    (h0 : nb ≠ 0) (h1 : nb < e.need_bits) :
    Encoder.accLoop fuel e v nb
      = { e with bits := e.bits ||| ((v &&& ((1 <<< nb) - 1)) <<< (e.need_bits - nb)),
                 need_bits := e.need_bits - nb } := by
  obtain ⟨f, rfl⟩ : ∃ f, fuel = f + 1 := ⟨fuel - 1, by omega⟩
  exact accLoop_step_masked f e v nb h0 h1

/-- Full characterization of a single `acc_bits` call under the register
invariant, for a value fitting in `nb ≤ 32` bits: either the bits fit in the
free positions, or a word flushes (exactly, or with a remainder started in a
fresh register). -/
theorem acc_bits_spec (e : Encoder) (v nb : Nat) (hnb : 1 ≤ nb) (hnb32 : nb ≤ 32)
    (hv : v < 2 ^ nb) (hacc : AccInv e) :
    Encoder.acc_bits e v nb
      = if nb < e.need_bits then
          { e with bits := e.bits + v * 2 ^ (e.need_bits - nb),
                   need_bits := e.need_bits - nb }
        else if nb = e.need_bits then
          { e with output := e.output ++ [e.bits + v], bits := 0, need_bits := 32 }
        else
          { e with output := e.output ++ [e.bits + v / 2 ^ (nb - e.need_bits)],
                   bits := (v % 2 ^ (nb - e.need_bits)) * 2 ^ (32 - (nb - e.need_bits)),
                   need_bits := 32 - (nb - e.need_bits) } := by
  obtain ⟨hn1, hn2, hblt, hbmod⟩ := hacc
  obtain ⟨k, rfl⟩ : ∃ k, nb = k + 1 := ⟨nb - 1, by omega⟩
  rw [Encoder.acc_bits]
  by_cases hlt : k + 1 < e.need_bits
  · rw [accLoop_step_masked k e v (k + 1) (by omega) hlt, if_pos hlt]
    have hm : v &&& (1 <<< (k + 1)) - 1 = v := by
      rw [Nat.one_shiftLeft, Nat.and_pow_two_sub_one_eq_mod, Nat.mod_eq_of_lt hv]
    have hsh : (v &&& ((1 <<< (k + 1)) - 1)) <<< (e.need_bits - (k + 1))
        = v * 2 ^ (e.need_bits - (k + 1)) := by
      rw [Nat.one_shiftLeft, Nat.and_pow_two_sub_one_eq_mod, Nat.mod_eq_of_lt hv,
        Nat.shiftLeft_eq]
    rw [hsh, lor_disjoint_add e.bits (v * 2 ^ (e.need_bits - (k + 1))) e.need_bits hbmod
      (by
        calc v * 2 ^ (e.need_bits - (k + 1)) < 2 ^ (k + 1) * 2 ^ (e.need_bits - (k + 1)) :=
              mul_lt_mul_of_pos_right hv (by positivity)
          _ = 2 ^ e.need_bits := by rw [← pow_add]; congr 1; omega)]
  · rw [accLoop_step_push k e v (k + 1) (by omega) hlt (by omega), if_neg hlt]
    by_cases heq : k + 1 = e.need_bits
    · rw [if_pos heq]
      have hz : k + 1 - e.need_bits = 0 := by omega
      rw [hz, accLoop_zero_nbits, Nat.shiftRight_zero,
        lor_disjoint_add e.bits v e.need_bits hbmod (by rw [← heq]; exact hv)]
    · rw [if_neg heq]
      set r := k + 1 - e.need_bits with hr
      have hr1 : 1 ≤ r := by omega
      have hr31 : r ≤ 31 := by omega
      have hpush : e.bits ||| (v >>> (k + 1 - e.need_bits))
          = e.bits + v / 2 ^ (k + 1 - e.need_bits) := by
        rw [Nat.shiftRight_eq_div_pow]
        exact lor_disjoint_add _ _ e.need_bits hbmod
          (by
            apply Nat.div_lt_of_lt_mul
            calc v < 2 ^ (k + 1) := hv
              _ = 2 ^ (k + 1 - e.need_bits) * 2 ^ e.need_bits := by
                  rw [← pow_add]; congr 1; omega)
      rw [hpush,
        accLoop_step_masked_of_pos k (by omega) _ v (k + 1 - e.need_bits) (by omega)
          (by show k + 1 - e.need_bits < 32; omega)]
      simp only [Nat.zero_or]
      rw [Nat.one_shiftLeft, Nat.and_pow_two_sub_one_eq_mod, Nat.shiftLeft_eq]


/-- For `nstates = 2 ^ sbits` (with `1 ≤ sbits ≤ 32`), the width computed by
`write` and `decode_first`, `32 - leading_zeros(nstates - 1)`, is `sbits`. -/
theorem sbits_of_nstates (sbits : Nat) (h1 : 1 ≤ sbits) (h2 : sbits ≤ 32) :
    32 - leadingZeros32 (2 ^ sbits - 1) = sbits := by
  have hp1 := Nat.two_pow_pos (sbits - 1)
  have hh : 2 ^ (sbits - 1) * 2 = 2 ^ sbits := by
    rw [← pow_succ]
    congr 1
    omega
  have hne : 2 ^ sbits - 1 ≠ 0 := by omega
  have hlog : Nat.log2 (2 ^ sbits - 1) = sbits - 1 := by
    rw [Nat.log2_eq_log_two]
    apply Nat.log_eq_of_pow_le_of_lt_pow
    · omega
    · have hs : sbits - 1 + 1 = sbits := by omega
      rw [hs]
      omega
  rw [leadingZeros32, bitLen_eq, if_neg hne, hlog]
  omega

/-- The reversed-index loop of `write` emits exactly the reversed word
list. -/
theorem rangeRevMap (l : List Nat) :
    (List.range l.length).reverse.map (fun i => (l.getD i 0, 32))
      = l.reverse.map (fun w => (w, 32)) := by
  have h1 : (List.range l.length).map (fun i => (l.getD i 0, 32)) = l.map (fun w => (w, 32)) := by
    apply List.ext_getElem
    · simp
    · intro n hn1 hn2
      simp only [List.getElem_map, List.getElem_range]
      have hn : n < l.length := by simpa using hn2
      rw [List.getD_eq_getElem l 0 hn]
  calc (List.range l.length).reverse.map (fun i => (l.getD i 0, 32))
      = ((List.range l.length).map (fun i => (l.getD i 0, 32))).reverse :=
        List.map_reverse _ _
    _ = (l.map (fun w => (w, 32))).reverse := by rw [h1]
    _ = l.reverse.map (fun w => (w, 32)) := (List.map_reverse _ _).symm

/-- C5, amended: the bit stream of a finished encode consists of, in reading
order, first the final partial accumulator word (if any), then the flushed
32-bit words in reverse of the order they were produced — not the partial
word last, as claimed.  The `sbits`-wide final numeral is the head of this
stream: reading `sbits` bits off it (as `decode_first` does) yields exactly
the encoder's final state. -/
theorem c5_amended_wire_layout (sbits : Nat) (e : Encoder) (hsb : 1 ≤ sbits)
    (hsb2 : sbits ≤ 32) (hn : e.nstates = 2 ^ sbits) (hstate : e.state < 2 ^ sbits)
    (hacc : AccInv e) :
    Encoder.writeCalls e
      = (if (e.acc_bits e.state sbits).need_bits < 32
          then [((e.acc_bits e.state sbits).bits >>> (e.acc_bits e.state sbits).need_bits,
                 32 - (e.acc_bits e.state sbits).need_bits)]
          else [])
        ++ (e.acc_bits e.state sbits).output.reverse.map (fun w => (w, 32))
    ∧ (readBitsStream sbits (callsBits (Encoder.writeCalls e))).map Prod.fst = some e.state := by
  have hsbits : 32 - leadingZeros32 (e.nstates - 1) = sbits := by
    rw [hn]
    exact sbits_of_nstates sbits hsb hsb2
  have hwc : Encoder.writeCalls e
      = (if (e.acc_bits e.state sbits).need_bits < 32
          then [((e.acc_bits e.state sbits).bits >>> (e.acc_bits e.state sbits).need_bits,
                 32 - (e.acc_bits e.state sbits).need_bits)]
          else [])
        ++ (e.acc_bits e.state sbits).output.reverse.map (fun w => (w, 32)) := by
    simp only [Encoder.writeCalls]
    rw [hsbits]
    congr 1
    exact rangeRevMap _
  refine ⟨hwc, ?_⟩
  obtain ⟨hn1, hn2, hblt, hbmod⟩ := hacc
  obtain ⟨q, hq⟩ : 2 ^ e.need_bits ∣ e.bits := Nat.dvd_of_mod_eq_zero hbmod
  rw [hwc, acc_bits_spec e e.state sbits hsb hsb2 hstate ⟨hn1, hn2, hblt, hbmod⟩]
  by_cases h1 : sbits < e.need_bits
  · -- the final numeral fits inside the current accumulator word
    rw [if_pos h1]
    dsimp only
    rw [if_pos (by omega)]
    rw [List.singleton_append, callsBits_cons]
    dsimp only
    have hpn : sbits ≤ 32 - (e.need_bits - sbits) := by omega
    rw [readBitsStream, if_pos (by
      rw [List.length_append, callBits_length]
      omega)]
    rw [Option.map]
    congr 2
    rw [List.take_append_eq_append_take, callBits_length,
      Nat.sub_eq_zero_of_le hpn, List.take_zero, List.append_nil,
      callBits_take _ _ _ hpn, natOfBits_callBits]
    have hd : e.bits + e.state * 2 ^ (e.need_bits - sbits)
        = (2 ^ sbits * q + e.state) * 2 ^ (e.need_bits - sbits) := by
      rw [hq]
      have : (2 : Nat) ^ e.need_bits = 2 ^ sbits * 2 ^ (e.need_bits - sbits) := by
        rw [← pow_add]
        congr 1
        omega
      rw [this]
      ring
    rw [Nat.shiftRight_eq_div_pow, hd, Nat.mul_div_cancel _ (by positivity)]
    rw [Nat.add_comm, Nat.add_mul_mod_self_left, Nat.mod_eq_of_lt hstate]
  · rw [if_neg h1]
    by_cases h2 : sbits = e.need_bits
    · -- the final numeral exactly fills the accumulator word
      rw [if_pos h2]
      dsimp only
      rw [if_neg (by omega), List.nil_append, List.reverse_append,
        List.reverse_singleton, List.singleton_append, List.map_cons, callsBits_cons]
      dsimp only
      rw [readBitsStream, if_pos (by
        rw [List.length_append, callBits_length]
        omega)]
      rw [Option.map]
      congr 2
      rw [List.take_append_eq_append_take, callBits_length,
        Nat.sub_eq_zero_of_le hsb2, List.take_zero, List.append_nil,
        callBits_take _ _ _ hsb2, natOfBits_callBits]
      rw [hq, ← h2, Nat.add_comm, Nat.add_mul_mod_self_left, Nat.mod_eq_of_lt hstate]
    · -- the final numeral spans the accumulator word and the next one
      rw [if_neg h2]
      dsimp only
      have hr1 : 1 ≤ sbits - e.need_bits := by omega
      have hr31 : sbits - e.need_bits ≤ 31 := by omega
      rw [if_pos (by omega), List.singleton_append, callsBits_cons]
      dsimp only
      rw [List.reverse_append, List.reverse_singleton, List.singleton_append,
        List.map_cons, callsBits_cons]
      dsimp only
      rw [readBitsStream, if_pos (by
        rw [List.length_append, List.length_append, callBits_length, callBits_length]
        omega)]
      rw [Option.map]
      congr 2
      have hpn2 : 32 - (32 - (sbits - e.need_bits)) = sbits - e.need_bits := by omega
      have hsr : sbits - (sbits - e.need_bits) = e.need_bits := by omega
      rw [Nat.shiftRight_eq_div_pow, Nat.mul_div_cancel _ (by positivity), hpn2]
      rw [List.take_append_eq_append_take, callBits_length,
        List.take_of_length_le (by rw [callBits_length]; omega),
        List.take_append_eq_append_take, callBits_length, hsr,
        callBits_take _ _ _ (by omega)]
      rw [Nat.sub_eq_zero_of_le hn2, List.take_zero, List.append_nil]
      dsimp only
      rw [natOfBits_append, callBits_length, natOfBits_callBits, natOfBits_callBits]
      have hmm1 : e.state % 2 ^ (sbits - e.need_bits) % 2 ^ (sbits - e.need_bits)
          = e.state % 2 ^ (sbits - e.need_bits) := Nat.mod_mod_of_dvd _ dvd_rfl
      have hdiv : e.state / 2 ^ (sbits - e.need_bits) < 2 ^ e.need_bits := by
        apply Nat.div_lt_of_lt_mul
        calc e.state < 2 ^ sbits := hstate
          _ = 2 ^ (sbits - e.need_bits) * 2 ^ e.need_bits := by
              rw [← pow_add]
              congr 1
              omega
      have hw : (e.bits + e.state / 2 ^ (sbits - e.need_bits)) % 2 ^ e.need_bits
          = e.state / 2 ^ (sbits - e.need_bits) := by
        rw [hq, Nat.add_comm, Nat.add_mul_mod_self_left, Nat.mod_eq_of_lt hdiv]
      rw [hmm1, hw]
      exact Nat.mod_add_div e.state _

/-- C5 is refuted: for the encode of c followed by seventeen a's (final state
5, one flushed word 429496733, partial accumulator word 2818572288 with 27
bits still free), the actual bit stream does not begin with the claimed
layout `[sbits-wide final numeral][reversed flushed words]` as separate
fields: the final numeral is instead packed at the head of the partial
accumulator word, which is written first.  Already the first 35 bits
differ. -/
theorem c5_counterexample :
    ¬ ((callsBits (Encoder.writeCalls
          (encodeSeq 3 [2,5,1] [2,0,0,0,0,0,0,0,0,0,0,0,0,0,0,0,0,0]))).take 35
        = (callBits (encodeSeq 3 [2,5,1] [2,0,0,0,0,0,0,0,0,0,0,0,0,0,0,0,0,0]).state 3
            ++ callsBits ((encodeSeq 3 [2,5,1]
                [2,0,0,0,0,0,0,0,0,0,0,0,0,0,0,0,0,0]).output.reverse.map
                  (fun w => (w, 32)))).take 35) := by
  rw [encSeqC5]
  decide

/-- Witness for the amended wire-layout theorem at the concrete encoder that
finishes the c, a, b, b, a encode (`mkE [] 536870912 2 26`, final state 2,
`sbits = 3`): the write calls are the single partial word `(66, 9)` and
reading 3 bits off the stream yields the final state 2. -/
theorem c5_amended_wire_layout_witness :
    Encoder.writeCalls (mkE [] 536870912 2 26) = [(66, 9)]
    ∧ (readBitsStream 3 (callsBits
        (Encoder.writeCalls (mkE [] 536870912 2 26)))).map Prod.fst = some 2 := by
  have h := c5_amended_wire_layout 3 (mkE [] 536870912 2 26) (by decide) (by decide)
    (by decide) (by decide) (by decide)
  exact ⟨by decide, h.2⟩

end Tans
